import Mathlib

/-!
Shallow embedding of the real-time collaboration core of the whiteboard
server: the append-only event log with snapshot replay and rollback
(src/apps/api/src/routers/history.py), the spatial chunk index
(src/apps/api/src/services/spatial.py), the connection manager
(src/apps/api/src/websocket/manager.py) and the object-update dispatch
(src/apps/api/src/websocket/handlers.py).

Python dicts are embedded as association lists in insertion order with
first-match lookup; `datetime.utcnow()` timestamps are abstract `Nat`
ticks supplied by the caller; geometry coordinates are integers (`Int`),
matching every scenario in the specification, with Python's `//` floor
division embedded as `Int.fdiv`.
-/

/-- A payload value stored in the loosely typed dicts of the wire protocol. -/
inductive Val where
  | num : Int → Val
  | str : String → Val
deriving DecidableEq, Repr

/-- A Python dict with string keys, kept in insertion order. -/
abbrev Dict := List (String × Val)

/-- First-match lookup, Python `d.get(k)` / `k in d` on a dict keyed by strings. -/
def aget {α : Type} : List (String × α) → String → Option α
  | [], _ => none
  | (k', v) :: t, k => if k' = k then some v else aget t k

/-- Python `d[k] = v`: replace the value at an existing key in place, else append. -/
def aset {α : Type} : List (String × α) → String → α → List (String × α)
  | [], k, v => [(k, v)]
  | (k', v') :: t, k, v => if k' = k then (k, v) :: t else (k', v') :: aset t k v

/-- Python `del d[k]` (removes the first occurrence of the key). -/
def adel {α : Type} : List (String × α) → String → List (String × α)
  | [], _ => []
  | (k', v') :: t, k => if k' = k then t else (k', v') :: adel t k

/-- The keys of a dict are pairwise distinct; every dict built by
`aset`/`adel` from `[]` satisfies this. -/
def keysNodup {α : Type} (m : List (String × α)) : Prop :=
  (m.map Prod.fst).Nodup

instance decKeysNodup {α : Type} (m : List (String × α)) :
    Decidable (keysNodup m) := by
  unfold keysNodup
  infer_instance

theorem aget_aset_self {α : Type} (m : List (String × α)) (k : String) (v : α) :
    aget (aset m k v) k = some v := by
  induction m with
  | nil => simp [aget, aset]
  | cons p t ih =>
    by_cases h : p.1 = k <;> simp [aget, aset, h, ih]

theorem aget_aset_ne {α : Type} (m : List (String × α)) (k k' : String) (v : α)
    (h : k' ≠ k) : aget (aset m k v) k' = aget m k' := by
  have hne : ¬(k = k') := fun hk => h hk.symm
  induction m with
  | nil => simp [aget, aset, hne]
  | cons p t ih =>
    by_cases hp : p.1 = k
    · simp [aget, aset, hp, hne]
    · by_cases hp' : p.1 = k' <;> simp [aget, aset, hp, hp', h, ih]

theorem aget_adel_ne {α : Type} (m : List (String × α)) (k k' : String)
    (h : k' ≠ k) : aget (adel m k) k' = aget m k' := by
  have hne : ¬(k = k') := fun hk => h hk.symm
  induction m with
  | nil => simp [adel]
  | cons p t ih =>
    by_cases hp : p.1 = k
    · simp [aget, adel, hp, hne]
    · by_cases hp' : p.1 = k' <;> simp [aget, adel, hp, hp', h, ih]

theorem aget_eq_none_of_not_mem_keys {α : Type} (m : List (String × α)) (k : String)
    (h : k ∉ m.map Prod.fst) : aget m k = none := by
  induction m with
  | nil => simp [aget]
  | cons p t ih =>
    simp only [List.map_cons, List.mem_cons] at h
    push_neg at h
    have hne : ¬(p.1 = k) := fun he => h.1 he.symm
    simp [aget, hne, ih h.2]

theorem aget_adel_self {α : Type} (m : List (String × α)) (k : String)
    (hnd : keysNodup m) : aget (adel m k) k = none := by
  induction m with
  | nil => simp [adel, aget]
  | cons p t ih =>
    simp only [keysNodup, List.map_cons, List.nodup_cons] at hnd
    by_cases hp : p.1 = k
    · subst hp
      simp [adel, aget_eq_none_of_not_mem_keys t p.1 hnd.1]
    · simp [adel, aget, hp, ih hnd.2]

theorem keys_aset {α : Type} (m : List (String × α)) (k : String) (v : α) :
    (aset m k v).map Prod.fst = if k ∈ m.map Prod.fst then m.map Prod.fst
      else m.map Prod.fst ++ [k] := by
  induction m with
  | nil => simp [aset]
  | cons p t ih =>
    by_cases hp : p.1 = k
    · simp [aset, hp]
    · have hne : ¬(k = p.1) := fun he => hp he.symm
      simp only [aset, if_neg hp, List.map_cons, ih, List.mem_cons]
      by_cases hk : k ∈ t.map Prod.fst
      · simp [hk, hne]
      · simp [hk, hne]

theorem keysNodup_aset {α : Type} (m : List (String × α)) (k : String) (v : α)
    (hnd : keysNodup m) : keysNodup (aset m k v) := by
  unfold keysNodup
  rw [keys_aset]
  by_cases hk : k ∈ m.map Prod.fst
  · simpa [hk] using hnd
  · simp only [if_neg hk]
    exact List.Nodup.append hnd (List.nodup_singleton k)
      (by simpa [List.disjoint_singleton] using hk)

theorem keys_adel_subset {α : Type} (m : List (String × α)) (k : String) :
    (adel m k).map Prod.fst ⊆ m.map Prod.fst := by
  induction m with
  | nil => simp [adel]
  | cons q s ihs =>
    by_cases hq : q.1 = k
    · simp only [adel, if_pos hq, List.map_cons]
      exact fun x hx => List.mem_cons_of_mem _ hx
    · simp only [adel, if_neg hq, List.map_cons]
      intro x hx
      rcases List.mem_cons.mp hx with h1 | h2
      · exact List.mem_cons.mpr (Or.inl h1)
      · exact List.mem_cons_of_mem _ (ihs h2)

theorem keysNodup_adel {α : Type} (m : List (String × α)) (k : String)
    (hnd : keysNodup m) : keysNodup (adel m k) := by
  induction m with
  | nil => simpa [adel] using hnd
  | cons p t ih =>
    simp only [keysNodup, List.map_cons, List.nodup_cons] at hnd
    by_cases hp : p.1 = k
    · simpa [adel, hp, keysNodup] using hnd.2
    · have ht := ih hnd.2
      simp only [adel, if_neg hp, keysNodup, List.map_cons, List.nodup_cons]
      exact ⟨fun hmem => hnd.1 (keys_adel_subset t k hmem), ht⟩

/-- Python `{**d1, **d2}` and the in-place `d1.update(d2)`: keys of `d1` keep
their position with values overridden by `d2`; keys only in `d2` follow. -/
def dictMerge (d1 d2 : Dict) : Dict :=
  d1.map (fun p => (p.1, (aget d2 p.1).getD p.2)) ++
    d2.filter (fun p => (aget d1 p.1).isNone)

theorem aget_append (a b : Dict) (k : String) :
    aget (a ++ b) k = match aget a k with | some v => some v | none => aget b k := by
  induction a with
  | nil => simp [aget]
  | cons p t ih =>
    by_cases h : p.1 = k <;> simp [aget, h, ih]

theorem aget_mapMerge (d2 d1 : Dict) (k : String) :
    aget (d1.map (fun p => (p.1, (aget d2 p.1).getD p.2))) k
      = (aget d1 k).map (fun v => (aget d2 k).getD v) := by
  induction d1 with
  | nil => simp [aget]
  | cons p t ih =>
    by_cases h : p.1 = k
    · subst h; simp [aget]
    · simp [aget, h, ih]

theorem aget_filter_isNone (d1 d2 : Dict) (k : String) :
    aget (d2.filter (fun p => (aget d1 p.1).isNone)) k
      = if (aget d1 k).isNone then aget d2 k else none := by
  induction d2 with
  | nil => simp [aget]
  | cons p t ih =>
    by_cases hk : p.1 = k
    · subst hk
      by_cases hp : (aget d1 p.1).isNone <;> simp [aget, hp, ih, List.filter]
    · by_cases hp : (aget d1 p.1).isNone <;> simp [aget, hk, hp, ih, List.filter]

/-- Lookup in a shallow merge: the right dict wins, the left fills in the rest. -/
theorem aget_dictMerge (d1 d2 : Dict) (k : String) :
    aget (dictMerge d1 d2) k
      = match aget d2 k with | some v => some v | none => aget d1 k := by
  unfold dictMerge
  rw [aget_append, aget_mapMerge, aget_filter_isNone]
  cases h1 : aget d1 k <;> cases h2 : aget d2 k <;> simp [h1, h2]

/-! ## Event log (history.py) -/

/-- One stored canvas event record, as produced by history.py `add_event`. -/
structure Event where
  event_type : String
  object_id : Option String
  previous_state : Option Dict
  new_state : Option Dict
  user_id : Option String
  guest_session_id : Option String
  sequence_num : Nat
  created_at : Nat
deriving DecidableEq, Repr

/-- The caller-supplied part of an event (`record_canvas_event` arguments). -/
structure EventData where
  event_type : String
  object_id : Option String
  previous_state : Option Dict
  new_state : Option Dict
  user_id : Option String
  guest_session_id : Option String
deriving DecidableEq, Repr

/-- The record `add_event` builds: sequence number is one past the current
length of the board's event list. -/
def mkEvent (events : List Event) (now : Nat) (d : EventData) : Event :=
  { event_type := d.event_type, object_id := d.object_id,
    previous_state := d.previous_state, new_state := d.new_state,
    user_id := d.user_id, guest_session_id := d.guest_session_id,
    sequence_num := events.length + 1, created_at := now }

/-- history.py `add_event` on one board's event list. -/
def add_event (events : List Event) (now : Nat) (d : EventData) : List Event :=
  events ++ [mkEvent events now d]

/-- A board's full event store built by a sequence of appends (each with its
own timestamp). -/
def buildLog (ds : List (EventData × Nat)) : List Event :=
  ds.foldl (fun log p => add_event log p.2 p.1) []

/-- The object-state map `get_snapshot` folds up: object id to payload dict. -/
abbrev ObjMap := List (String × Dict)

/-- One iteration of the replay loop in `get_snapshot` (history.py 149-158):
`create` inserts `new_state` keyed by a truthy object id, `update` shallow
merges onto an existing object, `delete` removes an existing object.
`event.get("new_state", {})` is embedded as `getD []`; a stored `None`
new_state would make the Python loop store `None` (create) or raise
(update) — no event reachable in the claims carries one. -/
def applyEvent (objects : ObjMap) (e : Event) : ObjMap :=
  let oid := e.object_id.getD ""
  if e.event_type = "create" ∧ oid ≠ "" then
    aset objects oid (e.new_state.getD [])
  else if e.event_type = "update" ∧ oid ≠ "" ∧ (aget objects oid).isSome then
    aset objects oid (dictMerge ((aget objects oid).getD []) (e.new_state.getD []))
  else if e.event_type = "delete" ∧ oid ≠ "" ∧ (aget objects oid).isSome then
    adel objects oid
  else objects

def replayFrom (objects : ObjMap) (events : List Event) : ObjMap :=
  events.foldl applyEvent objects

/-- Replaying a whole event list onto the empty object map. -/
def replay (events : List Event) : ObjMap := replayFrom [] events

/-- Stable insertion into a list already sorted ascending by sequence number. -/
def insertBySeq (e : Event) : List Event → List Event
  | [] => [e]
  | x :: t => if e.sequence_num ≤ x.sequence_num then e :: x :: t
              else x :: insertBySeq e t

/-- Python `sorted(events, key=lambda e: e["sequence_num"])` (stable, ascending). -/
def sortBySeq : List Event → List Event
  | [] => []
  | e :: t => insertBySeq e (sortBySeq t)

def insertBySeqDesc (e : Event) : List Event → List Event
  | [] => [e]
  | x :: t => if x.sequence_num ≤ e.sequence_num then e :: x :: t
              else x :: insertBySeqDesc e t

/-- Python `sorted(events, key=..., reverse=True)` (stable, descending). -/
def sortBySeqDesc : List Event → List Event
  | [] => []
  | e :: t => insertBySeqDesc e (sortBySeqDesc t)

/-- Python truthiness of the optional `at_sequence` query integer:
`if at_sequence:` is false for both `None` and `0`. -/
def intTruthy : Option Int → Bool
  | none => false
  | some n => n != 0

/-- The part of history.py `SnapshotResponse` the claims mention. The endpoint
serializes `objects` as `list(objects.values())`, i.e. `objects.map Prod.snd`;
the `snapshot_at` timestamp is not modelled (no claim mentions it). -/
structure SnapshotResult where
  sequence_num : Nat
  objects : ObjMap
deriving DecidableEq, Repr

/-- history.py `get_snapshot` on one board's event list. -/
def get_snapshot (events : List Event) (at_sequence : Option Int)
    (at_time : Option Nat) : SnapshotResult :=
  if events.isEmpty then ⟨0, []⟩
  else
    let cutoff_events :=
      if intTruthy at_sequence then
        events.filter (fun e => (e.sequence_num : Int) ≤ at_sequence.getD 0)
      else if at_time.isSome then
        events.filter (fun e => e.created_at ≤ at_time.getD 0)
      else events
    if cutoff_events.isEmpty then ⟨0, []⟩
    else
      ⟨(cutoff_events.map (fun e => e.sequence_num)).foldl Nat.max 0,
       replay (sortBySeq cutoff_events)⟩

/-- The compensating event appended for one undone event
(history.py 203-241): undo create → delete, undo update → update restoring
`previous_state`, undo delete → create from `previous_state`; any other
event type appends nothing. -/
def rollbackStep (log : List Event) (now : Nat) (e : Event) : List Event :=
  if e.event_type = "create" then
    add_event log now ⟨"delete", e.object_id, e.new_state, none, none, some "system-rollback"⟩
  else if e.event_type = "update" then
    add_event log now ⟨"update", e.object_id, e.new_state, e.previous_state, none, some "system-rollback"⟩
  else if e.event_type = "delete" then
    add_event log now ⟨"create", e.object_id, none, e.previous_state, none, some "system-rollback"⟩
  else log

/-- history.py `rollback_to_point` on one board's event list: selects the
events with sequence above the target, sorts them descending, and appends one
compensating event per undone event. Returns the (possibly extended) list and
whether the request succeeded; `false` embeds the HTTP 400
"No changes to rollback" rejection, raised before any append. -/
def rollback_to_point (log : List Event) (now : Nat) (target : Int) :
    List Event × Bool :=
  let events_to_undo := log.filter (fun e => target < (e.sequence_num : Int))
  if events_to_undo.isEmpty then (log, false)
  else ((sortBySeqDesc events_to_undo).foldl (fun l e => rollbackStep l now e) log,
        true)


/-! ## Sequence-number shape of reachable event stores -/

/-- The events at positions `0,1,2,...` of the list carry sequence numbers
`k+1, k+2, ...`. `seqFromB 0` is the shape of every per-board store reachable
through `add_event`: gap-free, strictly increasing, starting at 1. -/
def seqFromB : Nat → List Event → Bool
  | _, [] => true
  | k, e :: t => (e.sequence_num == k + 1) && seqFromB (k + 1) t

/-- Sequence numbers start at 1 and go up by one with each append. -/
def SequentialLog (l : List Event) : Prop := seqFromB 0 l = true

instance decSequentialLog (l : List Event) : Decidable (SequentialLog l) := by
  unfold SequentialLog
  infer_instance

theorem seqFromB_mem (l : List Event) (k : Nat) (h : seqFromB k l = true) :
    ∀ e ∈ l, k < e.sequence_num := by
  induction l generalizing k with
  | nil => intro e he; cases he
  | cons x t ih =>
    simp only [seqFromB, Bool.and_eq_true, beq_iff_eq] at h
    intro e he
    rcases List.mem_cons.mp he with rfl | hmem
    · omega
    · have := ih (k + 1) h.2 e hmem
      omega

theorem seqFromB_pairwise_lt (l : List Event) (k : Nat) (h : seqFromB k l = true) :
    l.Pairwise (fun a b => a.sequence_num < b.sequence_num) := by
  induction l generalizing k with
  | nil => exact List.Pairwise.nil
  | cons x t ih =>
    simp only [seqFromB, Bool.and_eq_true, beq_iff_eq] at h
    refine List.Pairwise.cons (fun e he => ?_) (ih (k + 1) h.2)
    have := seqFromB_mem t (k + 1) h.2 e he
    omega

theorem seqFromB_filter_le (l : List Event) (k : Nat) (T : Int)
    (h : seqFromB k l = true) :
    l.filter (fun e => decide ((e.sequence_num : Int) ≤ T)) = l.take (T.toNat - k) := by
  induction l generalizing k with
  | nil => simp
  | cons x t ih =>
    simp only [seqFromB, Bool.and_eq_true, beq_iff_eq] at h
    by_cases hx : (x.sequence_num : Int) ≤ T
    · have h1 : T.toNat - k = (T.toNat - (k + 1)) + 1 := by omega
      simp only [List.filter_cons, decide_eq_true hx, if_pos, h1, List.take_succ_cons]
      rw [ih (k + 1) h.2]
    · have h0 : T.toNat - k = 0 := by omega
      have h0' : T.toNat - (k + 1) = 0 := by omega
      simp only [List.filter_cons, h0, List.take_zero]
      rw [decide_eq_false hx]
      simpa [h0'] using ih (k + 1) h.2

theorem seqFromB_filter_gt (l : List Event) (k : Nat) (T : Int)
    (h : seqFromB k l = true) :
    l.filter (fun e => decide (T < (e.sequence_num : Int))) = l.drop (T.toNat - k) := by
  induction l generalizing k with
  | nil => simp
  | cons x t ih =>
    simp only [seqFromB, Bool.and_eq_true, beq_iff_eq] at h
    by_cases hx : T < (x.sequence_num : Int)
    · have h0 : T.toNat - k = 0 := by omega
      have h0' : T.toNat - (k + 1) = 0 := by omega
      simp only [List.filter_cons, decide_eq_true hx, if_pos, h0, List.drop_zero]
      rw [ih (k + 1) h.2, h0', List.drop_zero]
    · have h1 : T.toNat - k = (T.toNat - (k + 1)) + 1 := by omega
      simp only [List.filter_cons, h1, List.drop_succ_cons]
      rw [decide_eq_false hx]
      exact ih (k + 1) h.2

theorem seqFromB_append_one (l : List Event) (k : Nat) (e : Event)
    (h : seqFromB k l = true) (he : e.sequence_num = k + l.length + 1) :
    seqFromB k (l ++ [e]) = true := by
  induction l generalizing k with
  | nil => simp_all [seqFromB]
  | cons x t ih =>
    simp only [seqFromB, Bool.and_eq_true, beq_iff_eq] at h ⊢
    refine ⟨h.1, ih (k + 1) h.2 ?_⟩
    simp only [List.length_cons] at he
    omega

theorem sequential_add_event (l : List Event) (now : Nat) (d : EventData)
    (h : SequentialLog l) : SequentialLog (add_event l now d) :=
  seqFromB_append_one l 0 (mkEvent l now d) h (by simp [mkEvent])

theorem sequential_rollbackStep (l : List Event) (now : Nat) (e : Event)
    (h : SequentialLog l) : SequentialLog (rollbackStep l now e) := by
  unfold rollbackStep
  by_cases h1 : e.event_type = "create"
  · simpa [h1] using sequential_add_event l now _ h
  · by_cases h2 : e.event_type = "update"
    · simpa [h1, h2] using sequential_add_event l now _ h
    · by_cases h3 : e.event_type = "delete" <;>
        simp [h1, h2, h3, sequential_add_event l now _ h, h]

theorem rollbackStep_take (l : List Event) (now : Nat) (e : Event) :
    (rollbackStep l now e).take l.length = l := by
  unfold rollbackStep add_event
  by_cases h1 : e.event_type = "create"
  · simp [h1]
  · by_cases h2 : e.event_type = "update"
    · simp [h1, h2]
    · by_cases h3 : e.event_type = "delete" <;> simp [h1, h2, h3]

theorem rollbackStep_extends (l : List Event) (now : Nat) (e : Event) :
    ∃ tail, rollbackStep l now e = l ++ tail := by
  unfold rollbackStep add_event
  by_cases h1 : e.event_type = "create"
  · simp only [h1, if_pos]
    exact ⟨_, rfl⟩
  · by_cases h2 : e.event_type = "update"
    · simp only [h1, h2, if_neg, if_pos, ite_false, ite_true]
      exact ⟨_, rfl⟩
    · by_cases h3 : e.event_type = "delete"
      · simp only [h1, h2, h3, if_neg, if_pos, ite_false, ite_true]
        exact ⟨_, rfl⟩
      · simp only [h1, h2, h3, ite_false]
        exact ⟨[], by simp⟩

theorem foldl_rollbackStep_extends (es : List Event) (l : List Event) (now : Nat) :
    ∃ tail, es.foldl (fun acc e => rollbackStep acc now e) l = l ++ tail := by
  induction es generalizing l with
  | nil => exact ⟨[], by simp⟩
  | cons e t ih =>
    obtain ⟨t1, h1⟩ := rollbackStep_extends l now e
    obtain ⟨t2, h2⟩ := ih (rollbackStep l now e)
    exact ⟨t1 ++ t2, by rw [List.foldl_cons, h2, h1, List.append_assoc]⟩

theorem foldl_rollbackStep_sequential (es : List Event) (l : List Event) (now : Nat)
    (h : SequentialLog l) :
    SequentialLog (es.foldl (fun acc e => rollbackStep acc now e) l) := by
  induction es generalizing l with
  | nil => simpa
  | cons e t ih => exact ih _ (sequential_rollbackStep l now e h)

/-! ## Sorting is the identity (resp. reversal) on reachable stores -/

theorem sortBySeq_of_sorted (l : List Event)
    (h : l.Pairwise (fun a b => a.sequence_num ≤ b.sequence_num)) :
    sortBySeq l = l := by
  induction l with
  | nil => rfl
  | cons x t ih =>
    rw [List.pairwise_cons] at h
    rw [sortBySeq, ih h.2]
    cases t with
    | nil => rfl
    | cons y s =>
      have hxy : x.sequence_num ≤ y.sequence_num := h.1 y (List.mem_cons_self y s)
      simp [insertBySeq, hxy]

theorem insertBySeqDesc_last (e : Event) (l : List Event)
    (h : ∀ x ∈ l, e.sequence_num < x.sequence_num) :
    insertBySeqDesc e l = l ++ [e] := by
  induction l with
  | nil => rfl
  | cons x t ih =>
    have hx : ¬(x.sequence_num ≤ e.sequence_num) := by
      have := h x (List.mem_cons_self x t)
      omega
    rw [insertBySeqDesc, if_neg hx, ih (fun y hy => h y (List.mem_cons_of_mem x hy))]
    rfl

theorem sortBySeqDesc_of_ascending (l : List Event)
    (h : l.Pairwise (fun a b => a.sequence_num < b.sequence_num)) :
    sortBySeqDesc l = l.reverse := by
  induction l with
  | nil => rfl
  | cons x t ih =>
    rw [List.pairwise_cons] at h
    rw [sortBySeqDesc, ih h.2]
    rw [insertBySeqDesc_last x t.reverse (fun y hy => h.1 y (List.mem_reverse.mp hy))]
    simp

/-! ## Characterization of get_snapshot on reachable stores -/

theorem get_snapshot_at_sequence (l : List Event) (T : Int)
    (hseq : SequentialLog l) (hT : 1 ≤ T) :
    (get_snapshot l (some T) none).objects
      = replay (l.filter (fun e => decide ((e.sequence_num : Int) ≤ T))) := by
  unfold get_snapshot
  by_cases hl : l.isEmpty
  · have : l = [] := List.isEmpty_iff.mp hl
    subst this
    simp [replay, replayFrom]
  · have htr : intTruthy (some T) = true := by
      simp only [intTruthy, bne_iff_ne]
      omega
    simp only [hl, Bool.false_eq_true, if_false, htr, if_pos]
    set cutoff := l.filter (fun e => decide ((e.sequence_num : Int) ≤ T)) with hc
    by_cases hce : cutoff.isEmpty
    · have : cutoff = [] := List.isEmpty_iff.mp hce
      simp [hce, this, replay, replayFrom]
    · have hsorted : cutoff.Pairwise (fun a b => a.sequence_num ≤ b.sequence_num) := by
        have hp := seqFromB_pairwise_lt l 0 hseq
        have hsub := List.filter_sublist (l := l)
          (p := fun e => decide ((e.sequence_num : Int) ≤ T))
        exact (hp.sublist hsub).imp (fun h => Nat.le_of_lt h)
      simp [hce, sortBySeq_of_sorted cutoff hsorted]

theorem get_snapshot_at_time (l : List Event) (t : Nat) (hseq : SequentialLog l) :
    (get_snapshot l none (some t)).objects
      = replay (l.filter (fun e => decide (e.created_at ≤ t))) := by
  unfold get_snapshot
  by_cases hl : l.isEmpty
  · have : l = [] := List.isEmpty_iff.mp hl
    subst this
    simp [replay, replayFrom]
  · simp only [hl, Bool.false_eq_true, if_false, intTruthy, Option.isSome_some, if_true,
      Bool.false_eq_true, if_false]
    set cutoff := l.filter (fun e => decide (e.created_at ≤ t)) with hc
    by_cases hce : cutoff.isEmpty
    · have : cutoff = [] := List.isEmpty_iff.mp hce
      simp [hce, this, replay, replayFrom]
    · have hsorted : cutoff.Pairwise (fun a b => a.sequence_num ≤ b.sequence_num) := by
        have hp := seqFromB_pairwise_lt l 0 hseq
        have hsub := List.filter_sublist (l := l)
          (p := fun e => decide (e.created_at ≤ t))
        exact (hp.sublist hsub).imp (fun h => Nat.le_of_lt h)
      simp [hce, sortBySeq_of_sorted cutoff hsorted]

theorem get_snapshot_no_cutoff (l : List Event) (hseq : SequentialLog l) :
    (get_snapshot l none none).objects = replay l := by
  unfold get_snapshot
  by_cases hl : l.isEmpty
  · have : l = [] := List.isEmpty_iff.mp hl
    subst this
    simp [replay, replayFrom]
  · have hsorted : l.Pairwise (fun a b => a.sequence_num ≤ b.sequence_num) :=
      (seqFromB_pairwise_lt l 0 hseq).imp (fun h => Nat.le_of_lt h)
    simp [hl, intTruthy, sortBySeq_of_sorted l hsorted]

theorem get_snapshot_zero_eq_no_cutoff (l : List Event) :
    get_snapshot l (some 0) none = get_snapshot l none none := rfl

theorem get_snapshot_neg (l : List Event) (T : Int) (hT : T < 0) :
    get_snapshot l (some T) none = ⟨0, []⟩ := by
  unfold get_snapshot
  by_cases hl : l.isEmpty
  · simp [hl]
  · have htr : intTruthy (some T) = true := by
      simp only [intTruthy, bne_iff_ne]
      omega
    have hfe : l.filter (fun e => decide ((e.sequence_num : Int) ≤ T)) = [] := by
      rw [List.filter_eq_nil_iff]
      intro e _
      simp only [decide_eq_true_eq]
      push_neg
      omega
    simp [hl, htr, hfe]

/-! ## Extensional equality of object-state maps -/

/-- Nested lookup: the value of field `k` of object `oid`. -/
def lookup2 (m : ObjMap) (oid k : String) : Option Val :=
  match aget m oid with
  | some d => aget d k
  | none => none

/-- Two object-state maps are the same map of maps (Python `==` on the nested
dicts, which ignores insertion order). -/
def MapEquiv (m1 m2 : ObjMap) : Prop :=
  (∀ oid, (aget m1 oid).isSome = (aget m2 oid).isSome) ∧
  (∀ oid k, lookup2 m1 oid k = lookup2 m2 oid k)

theorem mapEquiv_refl (m : ObjMap) : MapEquiv m m :=
  ⟨fun _ => rfl, fun _ _ => rfl⟩

theorem mapEquiv_trans {a b c : ObjMap} (h1 : MapEquiv a b) (h2 : MapEquiv b c) :
    MapEquiv a c :=
  ⟨fun oid => (h1.1 oid).trans (h2.1 oid),
   fun oid k => (h1.2 oid k).trans (h2.2 oid k)⟩

theorem aget_mem_of_isSome {α : Type} (m : List (String × α)) (k : String)
    (h : (aget m k).isSome = true) : ∃ v, (k, v) ∈ m := by
  induction m with
  | nil => simp [aget] at h
  | cons p t ih =>
    by_cases hp : p.1 = k
    · exact ⟨p.2, by simp [← hp]⟩
    · simp only [aget, if_neg hp] at h
      obtain ⟨v, hv⟩ := ih h
      exact ⟨v, List.mem_cons_of_mem p hv⟩

/-! ## Branch lemmas for the replay loop -/

theorem applyEvent_create (σ : ObjMap) (e : Event) (oid : String) (d : Dict)
    (ht : e.event_type = "create") (ho : e.object_id = some oid)
    (hoid : oid ≠ "") (hn : e.new_state = some d) :
    applyEvent σ e = aset σ oid d := by
  simp [applyEvent, ht, ho, hoid, hn]

theorem applyEvent_update (σ : ObjMap) (e : Event) (oid : String) (cur n : Dict)
    (ht : e.event_type = "update") (ho : e.object_id = some oid)
    (hoid : oid ≠ "") (hcur : aget σ oid = some cur) (hn : e.new_state = some n) :
    applyEvent σ e = aset σ oid (dictMerge cur n) := by
  simp [applyEvent, ht, ho, hoid, hcur, hn]

theorem applyEvent_delete (σ : ObjMap) (e : Event) (oid : String)
    (ht : e.event_type = "delete") (ho : e.object_id = some oid)
    (hoid : oid ≠ "") (hsome : (aget σ oid).isSome = true) :
    applyEvent σ e = adel σ oid := by
  simp [applyEvent, ht, ho, hoid, hsome]

theorem keysNodup_applyEvent (σ : ObjMap) (e : Event) (h : keysNodup σ) :
    keysNodup (applyEvent σ e) := by
  unfold applyEvent
  dsimp only
  split_ifs <;>
    simp [keysNodup_aset, keysNodup_adel, h]

theorem replayFrom_append (σ : ObjMap) (a b : List Event) :
    replayFrom σ (a ++ b) = replayFrom (replayFrom σ a) b := by
  simp [replayFrom, List.foldl_append]

theorem replayFrom_cons (σ : ObjMap) (e : Event) (t : List Event) :
    replayFrom σ (e :: t) = replayFrom (applyEvent σ e) t := rfl

theorem replayFrom_single (σ : ObjMap) (e : Event) :
    replayFrom σ [e] = applyEvent σ e := rfl

theorem keysNodup_replayFrom (es : List Event) (σ : ObjMap) (h : keysNodup σ) :
    keysNodup (replayFrom σ es) := by
  induction es generalizing σ with
  | nil => simpa [replayFrom]
  | cons e t ih => exact ih _ (keysNodup_applyEvent σ e h)

theorem keysNodup_replay (es : List Event) : keysNodup (replay es) :=
  keysNodup_replayFrom es [] (by simp [keysNodup])

/-! ## Faithful events: recorded states match the replayed state -/

/-- One event is faithful to the object map it is applied to: a `create`
targets an absent object and carries a concrete new state; an `update` or
`delete` targets a present object and records its exact current payload as
`previous_state`; an `update` introduces no field absent from that recorded
previous state. -/
def faithfulStepB (σ : ObjMap) (e : Event) : Bool :=
  match e.object_id with
  | none => false
  | some oid =>
    oid != "" &&
    (if e.event_type = "create" then
       (aget σ oid).isNone && e.new_state.isSome
     else if e.event_type = "update" then
       match aget σ oid, e.previous_state, e.new_state with
       | some cur, some prev, some n =>
           prev == cur && n.all (fun p => (aget cur p.1).isSome)
       | _, _, _ => false
     else if e.event_type = "delete" then
       match aget σ oid, e.previous_state with
       | some cur, some prev => prev == cur
       | _, _ => false
     else false)

def faithfulFromB (σ : ObjMap) : List Event → Bool
  | [] => true
  | e :: t => faithfulStepB σ e && faithfulFromB (applyEvent σ e) t

/-- A whole event list is faithful when each event is faithful to the state
reached by replaying the events before it. -/
def Faithful (l : List Event) : Prop := faithfulFromB [] l = true

instance decFaithful (l : List Event) : Decidable (Faithful l) := by
  unfold Faithful
  infer_instance

theorem faithfulFromB_append (a b : List Event) (σ : ObjMap) :
    faithfulFromB σ (a ++ b)
      = (faithfulFromB σ a && faithfulFromB (replayFrom σ a) b) := by
  induction a generalizing σ with
  | nil => simp [faithfulFromB, replayFrom]
  | cons e t ih =>
    simp [faithfulFromB, ih (applyEvent σ e), replayFrom_cons, Bool.and_assoc]

theorem faithfulStepB_knownType (σ : ObjMap) (e : Event)
    (h : faithfulStepB σ e = true) :
    e.event_type = "create" ∨ e.event_type = "update" ∨ e.event_type = "delete" := by
  unfold faithfulStepB at h
  cases ho : e.object_id with
  | none => simp [ho] at h
  | some oid =>
    rw [ho] at h
    by_cases h1 : e.event_type = "create"
    · exact Or.inl h1
    · by_cases h2 : e.event_type = "update"
      · exact Or.inr (Or.inl h2)
      · by_cases h3 : e.event_type = "delete"
        · exact Or.inr (Or.inr h3)
        · simp [h1, h2, h3] at h

theorem faithfulFromB_knownTypes (l : List Event) (σ : ObjMap)
    (h : faithfulFromB σ l = true) :
    ∀ e ∈ l, e.event_type = "create" ∨ e.event_type = "update" ∨ e.event_type = "delete" := by
  induction l generalizing σ with
  | nil => intro e he; cases he
  | cons x t ih =>
    simp only [faithfulFromB, Bool.and_eq_true] at h
    intro e he
    rcases List.mem_cons.mp he with rfl | hmem
    · exact faithfulStepB_knownType σ e h.1
    · exact ih (applyEvent σ x) h.2 e hmem

/-! ## The compensating event, reduced to the fields replay reads -/

/-- The compensating event generated for `e`, with the bookkeeping fields
(sequence number, timestamp) zeroed: `applyEvent` never reads them. -/
def compCore (e : Event) : Event :=
  if e.event_type = "create" then
    ⟨"delete", e.object_id, e.new_state, none, none, some "system-rollback", 0, 0⟩
  else if e.event_type = "update" then
    ⟨"update", e.object_id, e.new_state, e.previous_state, none, some "system-rollback", 0, 0⟩
  else if e.event_type = "delete" then
    ⟨"create", e.object_id, none, e.previous_state, none, some "system-rollback", 0, 0⟩
  else e

theorem applyEvent_fields_only (σ : ObjMap) (e1 e2 : Event)
    (ht : e1.event_type = e2.event_type) (ho : e1.object_id = e2.object_id)
    (hn : e1.new_state = e2.new_state) :
    applyEvent σ e1 = applyEvent σ e2 := by
  simp [applyEvent, ht, ho, hn]

/-- Replaying the log extended by the rollback loop is replaying the original
log and then the compensating cores, in undo order. -/
theorem replay_foldl_rollbackStep (es : List Event) (l : List Event) (now : Nat)
    (hknown : ∀ e ∈ es,
      e.event_type = "create" ∨ e.event_type = "update" ∨ e.event_type = "delete") :
    replay (es.foldl (fun acc e => rollbackStep acc now e) l)
      = replayFrom (replay l) (es.map compCore) := by
  induction es generalizing l with
  | nil => simp [replayFrom]
  | cons e t ih =>
    have hstep : replay (rollbackStep l now e) = applyEvent (replay l) (compCore e) := by
      rcases hknown e (List.mem_cons_self e t) with h1 | h2 | h3
      · rw [rollbackStep, if_pos h1]
        unfold add_event replay
        rw [replayFrom_append, replayFrom_single]
        apply applyEvent_fields_only <;> simp [mkEvent, compCore, h1]
      · rw [rollbackStep, if_neg (by simp [h2]), if_pos h2]
        unfold add_event replay
        rw [replayFrom_append, replayFrom_single]
        apply applyEvent_fields_only <;> simp [mkEvent, compCore, h2]
      · rw [rollbackStep, if_neg (by simp [h3]), if_neg (by simp [h3]), if_pos h3]
        unfold add_event replay
        rw [replayFrom_append, replayFrom_single]
        apply applyEvent_fields_only <;> simp [mkEvent, compCore, h3]
    rw [List.foldl_cons, ih _ (fun x hx => hknown x (List.mem_cons_of_mem e hx)),
      hstep, List.map_cons]
    rfl

/-! ## applyEvent respects map equivalence -/

theorem mapEquiv_aset (σ σ' : ObjMap) (oid : String) (d d' : Dict)
    (h : MapEquiv σ σ') (hd : ∀ k, aget d k = aget d' k) :
    MapEquiv (aset σ oid d) (aset σ' oid d') := by
  constructor
  · intro o
    by_cases ho : o = oid
    · subst ho; simp [aget_aset_self]
    · rw [aget_aset_ne σ oid o d ho, aget_aset_ne σ' oid o d' ho]
      exact h.1 o
  · intro o k
    by_cases ho : o = oid
    · subst ho
      simp [lookup2, aget_aset_self, hd k]
    · simp only [lookup2, aget_aset_ne σ oid o d ho, aget_aset_ne σ' oid o d' ho]
      exact h.2 o k

theorem mapEquiv_adel (σ σ' : ObjMap) (oid : String)
    (h : MapEquiv σ σ') (hnd : keysNodup σ) (hnd' : keysNodup σ') :
    MapEquiv (adel σ oid) (adel σ' oid) := by
  constructor
  · intro o
    by_cases ho : o = oid
    · subst ho; simp [aget_adel_self _ _ hnd, aget_adel_self _ _ hnd']
    · rw [aget_adel_ne σ oid o ho, aget_adel_ne σ' oid o ho]
      exact h.1 o
  · intro o k
    by_cases ho : o = oid
    · subst ho; simp [lookup2, aget_adel_self _ _ hnd, aget_adel_self _ _ hnd']
    · simp only [lookup2, aget_adel_ne σ oid o ho, aget_adel_ne σ' oid o ho]
      exact h.2 o k

theorem applyEvent_mapEquiv (σ σ' : ObjMap) (e : Event)
    (h : MapEquiv σ σ') (hnd : keysNodup σ) (hnd' : keysNodup σ') :
    MapEquiv (applyEvent σ e) (applyEvent σ' e) := by
  unfold applyEvent
  dsimp only
  set oid := e.object_id.getD "" with hoiddef
  have hsame : (aget σ oid).isSome = (aget σ' oid).isSome := h.1 oid
  by_cases h1 : e.event_type = "create" ∧ oid ≠ ""
  · rw [if_pos h1, if_pos h1]
    exact mapEquiv_aset σ σ' oid _ _ h (fun _ => rfl)
  · rw [if_neg h1, if_neg h1]
    by_cases h2 : e.event_type = "update" ∧ oid ≠ "" ∧ (aget σ oid).isSome = true
    · have h2' : e.event_type = "update" ∧ oid ≠ "" ∧ (aget σ' oid).isSome = true :=
        ⟨h2.1, h2.2.1, by rw [← hsame]; exact h2.2.2⟩
      rw [if_pos h2, if_pos h2']
      apply mapEquiv_aset σ σ' oid _ _ h
      intro k
      obtain ⟨cur, hc⟩ := Option.isSome_iff_exists.mp h2.2.2
      obtain ⟨cur', hc'⟩ := Option.isSome_iff_exists.mp h2'.2.2
      have hl := h.2 oid k
      simp only [lookup2, hc, hc'] at hl
      rw [aget_dictMerge, aget_dictMerge]
      cases hn : aget (e.new_state.getD []) k <;> simp [hc, hc', hl]
    · have h2' : ¬(e.event_type = "update" ∧ oid ≠ "" ∧ (aget σ' oid).isSome = true) := by
        rw [← hsame]; exact h2
      rw [if_neg h2, if_neg h2']
      by_cases h3 : e.event_type = "delete" ∧ oid ≠ "" ∧ (aget σ oid).isSome = true
      · have h3' : e.event_type = "delete" ∧ oid ≠ "" ∧ (aget σ' oid).isSome = true :=
          ⟨h3.1, h3.2.1, by rw [← hsame]; exact h3.2.2⟩
        rw [if_pos h3, if_pos h3']
        exact mapEquiv_adel σ σ' oid h hnd hnd'
      · have h3' : ¬(e.event_type = "delete" ∧ oid ≠ "" ∧ (aget σ' oid).isSome = true) := by
          rw [← hsame]; exact h3
        rw [if_neg h3, if_neg h3']
        exact h

/-! ## A faithful event followed by its compensating event cancels out -/

theorem adel_aset_of_none {α : Type} (m : List (String × α)) (k : String) (v : α)
    (h : aget m k = none) : adel (aset m k v) k = m := by
  induction m with
  | nil => simp [aset, adel]
  | cons p t ih =>
    by_cases hp : p.1 = k
    · simp [aget, hp] at h
    · simp only [aget, if_neg hp] at h
      simp [aset, adel, hp, ih h]

theorem aset_aset {α : Type} (m : List (String × α)) (k : String) (v w : α) :
    aset (aset m k v) k w = aset m k w := by
  induction m with
  | nil => simp [aset]
  | cons p t ih =>
    by_cases hp : p.1 = k <;> simp [aset, hp, ih]

theorem applyEvent_comp_cancel (σ : ObjMap) (e : Event)
    (hf : faithfulStepB σ e = true) (_hnd : keysNodup σ) :
    MapEquiv (applyEvent (applyEvent σ e) (compCore e)) σ := by
  unfold faithfulStepB at hf
  cases ho : e.object_id with
  | none => rw [ho] at hf; exact absurd hf (by simp)
  | some oid =>
    rw [ho] at hf
    rw [Bool.and_eq_true, bne_iff_ne] at hf
    obtain ⟨hoid, hf⟩ := hf
    by_cases h1 : e.event_type = "create"
    · rw [if_pos h1, Bool.and_eq_true, Option.isNone_iff_eq_none,
        Option.isSome_iff_exists] at hf
      obtain ⟨hnone, d, hd⟩ := hf
      rw [applyEvent_create σ e oid d h1 ho hoid hd]
      rw [show compCore e
          = ⟨"delete", e.object_id, e.new_state, none, none, some "system-rollback", 0, 0⟩
        from by rw [compCore, if_pos h1]]
      rw [applyEvent_delete (aset σ oid d)
        ⟨"delete", e.object_id, e.new_state, none, none, some "system-rollback", 0, 0⟩
        oid rfl ho hoid (by simp [aget_aset_self])]
      rw [adel_aset_of_none σ oid d hnone]
      exact mapEquiv_refl σ
    · by_cases h2 : e.event_type = "update"
      · rw [if_neg h1, if_pos h2] at hf
        cases hc : aget σ oid with
        | none =>
          rw [hc] at hf
          cases e.previous_state <;> cases e.new_state <;> simp at hf
        | some cur =>
          rw [hc] at hf
          cases hp : e.previous_state with
          | none => rw [hp] at hf; cases e.new_state <;> simp at hf
          | some prev =>
            cases hn : e.new_state with
            | none => rw [hp, hn] at hf; simp at hf
            | some n =>
              rw [hp, hn, Bool.and_eq_true, beq_iff_eq, List.all_eq_true] at hf
              obtain ⟨hprev, hall⟩ := hf
              rw [hprev] at hp
              rw [applyEvent_update σ e oid cur n h2 ho hoid hc hn]
              rw [show compCore e
                  = ⟨"update", e.object_id, e.new_state, e.previous_state, none,
                     some "system-rollback", 0, 0⟩
                from by rw [compCore, if_neg h1, if_pos h2]]
              rw [applyEvent_update (aset σ oid (dictMerge cur n))
                ⟨"update", e.object_id, e.new_state, e.previous_state, none,
                  some "system-rollback", 0, 0⟩
                oid (dictMerge cur n) cur rfl ho hoid
                (aget_aset_self σ oid (dictMerge cur n)) hp]
              rw [aset_aset]
              constructor
              · intro o
                by_cases hoo : o = oid
                · subst hoo; simp [aget_aset_self, hc]
                · rw [aget_aset_ne σ oid o _ hoo]
              · intro o k
                by_cases hoo : o = oid
                · subst hoo
                  simp only [lookup2, aget_aset_self, hc]
                  rw [aget_dictMerge, aget_dictMerge]
                  cases hcu : aget cur k with
                  | some v => simp [hcu]
                  | none =>
                    cases hnk : aget n k with
                    | none => simp [hcu, hnk]
                    | some w =>
                      obtain ⟨v, hv⟩ := aget_mem_of_isSome n k (by simp [hnk])
                      have hsome := hall (k, v) hv
                      simp only at hsome
                      rw [hcu] at hsome
                      simp at hsome
                · simp only [lookup2, aget_aset_ne σ oid o _ hoo]
      · by_cases h3 : e.event_type = "delete"
        · rw [if_neg h1, if_neg h2, if_pos h3] at hf
          cases hc : aget σ oid with
          | none => rw [hc] at hf; cases e.previous_state <;> simp at hf
          | some cur =>
            rw [hc] at hf
            cases hp : e.previous_state with
            | none => rw [hp] at hf; simp at hf
            | some prev =>
              rw [hp, beq_iff_eq] at hf
              subst hf
              rw [applyEvent_delete σ e oid h3 ho hoid (by simp [hc])]
              rw [show compCore e
                  = ⟨"create", e.object_id, none, e.previous_state, none,
                     some "system-rollback", 0, 0⟩
                from by rw [compCore, if_neg h1, if_neg h2, if_pos h3]]
              rw [applyEvent_create (adel σ oid)
                ⟨"create", e.object_id, none, e.previous_state, none,
                  some "system-rollback", 0, 0⟩
                oid prev rfl ho hoid hp]
              constructor
              · intro o
                by_cases hoo : o = oid
                · subst hoo; simp [aget_aset_self, hc]
                · rw [aget_aset_ne _ oid o _ hoo, aget_adel_ne σ oid o hoo]
              · intro o k
                by_cases hoo : o = oid
                · subst hoo; simp [lookup2, aget_aset_self, hc]
                · simp only [lookup2, aget_aset_ne _ oid o _ hoo,
                    aget_adel_ne σ oid o hoo]
        · rw [if_neg h1, if_neg h2, if_neg h3] at hf
          cases hf

/-- Replaying a faithful suffix and then its compensating events, most recent
first, lands back where the suffix started. -/
theorem undo_cancels (suffix : List Event) (σ : ObjMap)
    (hf : faithfulFromB σ suffix = true) (hnd : keysNodup σ) :
    MapEquiv (replayFrom (replayFrom σ suffix) (suffix.reverse.map compCore)) σ := by
  induction suffix generalizing σ with
  | nil => exact mapEquiv_refl σ
  | cons e t ih =>
    rw [faithfulFromB, Bool.and_eq_true] at hf
    have hnd1 : keysNodup (applyEvent σ e) := keysNodup_applyEvent σ e hnd
    have hIH := ih (applyEvent σ e) hf.2 hnd1
    rw [replayFrom_cons, List.reverse_cons, List.map_append, List.map_cons,
      List.map_nil, replayFrom_append, replayFrom_single]
    have hndX : keysNodup
        (replayFrom (replayFrom (applyEvent σ e) t) (t.reverse.map compCore)) :=
      keysNodup_replayFrom _ _ (keysNodup_replayFrom _ _ hnd1)
    have hcong := applyEvent_mapEquiv _ _ (compCore e) hIH hndX hnd1
    exact mapEquiv_trans hcong (applyEvent_comp_cancel σ e hf.1 hnd)

/-! ## C1: the rollback law -/

/-- C1 (amended). For every board whose stored log is reachable (sequence
numbers 1,2,... in order) and faithful (each event records the true prior
state of its object, creates target absent objects, and no update introduces
a field absent from its recorded previous state), and every target sequence
`T` with `1 ≤ T < length`: `rollback` succeeds, and replaying the full
extended event log yields the same object-state map as
`snapshotAt(atSequence = T)` computed on the log before the rollback. -/
theorem rollback_law_amended (log : List Event) (now : Nat) (T : Int)
    (hseq : SequentialLog log) (hfaith : Faithful log) (hT : 1 ≤ T)
    (hlt : T < (log.length : Int)) :
    (rollback_to_point log now T).2 = true ∧
    MapEquiv (replay (rollback_to_point log now T).1)
      ((get_snapshot log (some T) none).objects) := by
  have hdrop : log.filter (fun e => decide (T < (e.sequence_num : Int)))
      = log.drop T.toNat := by
    simpa using seqFromB_filter_gt log 0 T hseq
  have htake : log.filter (fun e => decide ((e.sequence_num : Int) ≤ T))
      = log.take T.toNat := by
    simpa using seqFromB_filter_le log 0 T hseq
  have hne : ¬((log.drop T.toNat).isEmpty = true) := by
    rw [List.isEmpty_iff, List.drop_eq_nil_iff]
    omega
  have hsortd : sortBySeqDesc (log.drop T.toNat) = (log.drop T.toNat).reverse :=
    sortBySeqDesc_of_ascending _
      ((seqFromB_pairwise_lt log 0 hseq).sublist (List.drop_sublist _ _))
  have hrb : rollback_to_point log now T
      = (((log.drop T.toNat).reverse).foldl (fun l e => rollbackStep l now e) log,
         true) := by
    unfold rollback_to_point
    dsimp only
    rw [hdrop, hsortd, if_neg hne]
  have hknown : ∀ e ∈ (log.drop T.toNat).reverse,
      e.event_type = "create" ∨ e.event_type = "update" ∨ e.event_type = "delete" := by
    intro e he
    exact faithfulFromB_knownTypes log [] hfaith e
      (List.mem_of_mem_drop (List.mem_reverse.mp he))
  have hreplay := replay_foldl_rollbackStep ((log.drop T.toNat).reverse) log now hknown
  have hsplit : replayFrom (replayFrom [] (log.take T.toNat)) (log.drop T.toNat)
      = replay log := by
    rw [← replayFrom_append, List.take_append_drop]
    rfl
  have hfs : faithfulFromB (replayFrom [] (log.take T.toNat)) (log.drop T.toNat)
      = true := by
    have h2 := faithfulFromB_append (log.take T.toNat) (log.drop T.toNat) []
    rw [List.take_append_drop] at h2
    have h3 := hfaith
    rw [Faithful, h2, Bool.and_eq_true] at h3
    exact h3.2
  have hcancel := undo_cancels (log.drop T.toNat) (replayFrom [] (log.take T.toNat))
    hfs (keysNodup_replayFrom _ _ (by simp [keysNodup]))
  refine ⟨by rw [hrb], ?_⟩
  rw [hrb]
  rw [get_snapshot_at_sequence log T hseq hT, htake]
  show MapEquiv (replay (((log.drop T.toNat).reverse).foldl
    (fun l e => rollbackStep l now e) log)) (replay (log.take T.toNat))
  rw [hreplay]
  have hlogsplit : replay log
      = replayFrom (replayFrom [] (log.take T.toNat)) (log.drop T.toNat) :=
    hsplit.symm
  rw [hlogsplit]
  have hmap : ((log.drop T.toNat).reverse).map compCore
      = ((log.drop T.toNat).reverse).map compCore := rfl
  exact hcancel

/-- A concrete board used in the C1 counterexample and witness: create object
"X" with field a=1. -/
def evCreateX : Event :=
  ⟨"create", some "X", none, some [("a", Val.num 1)], none, some "u", 1, 0⟩

/-- Update "X" adding the fresh field b=2, faithfully recording the previous
state a=1. -/
def evUpdateX : Event :=
  ⟨"update", some "X", some [("a", Val.num 1)], some [("b", Val.num 2)], none,
   some "u", 2, 1⟩

/-- Delete "X", faithfully recording its state a=1. -/
def evDeleteX : Event :=
  ⟨"delete", some "X", some [("a", Val.num 1)], none, none, some "u", 2, 1⟩

/-- C1 (counterexample). On the log [create X a=1, update X b=2 recording the
true previous state a=1] with target sequence 1, rollback succeeds but
replaying the extended log keeps the field b=2 on X (the compensating update
shallow-merges a=1 over a=1,b=2), while the pre-rollback snapshot at
sequence 1 has no field b: the claimed law fails as stated. -/
theorem rollback_law_counterexample :
    (rollback_to_point [evCreateX, evUpdateX] 2 1).2 = true ∧
    ¬ MapEquiv (replay (rollback_to_point [evCreateX, evUpdateX] 2 1).1)
      ((get_snapshot [evCreateX, evUpdateX] (some 1) none).objects) := by
  refine ⟨by decide, fun h => ?_⟩
  have hb := h.2 "X" "b"
  have h1 : lookup2 (replay (rollback_to_point [evCreateX, evUpdateX] 2 1).1)
      "X" "b" = some (Val.num 2) := by decide
  have h2 : lookup2 ((get_snapshot [evCreateX, evUpdateX] (some 1) none).objects)
      "X" "b" = none := by decide
  rw [h1, h2] at hb
  cases hb

/-- C1 (witness). The amended law on the concrete faithful log
[create X a=1, delete X recording a=1] with target sequence 1. -/
theorem rollback_law_amended_witness :
    SequentialLog [evCreateX, evDeleteX] ∧ Faithful [evCreateX, evDeleteX] ∧
    (1 : Int) ≤ 1 ∧ (1 : Int) < (([evCreateX, evDeleteX] : List Event).length : Int) ∧
    ((rollback_to_point [evCreateX, evDeleteX] 5 1).2 = true ∧
     MapEquiv (replay (rollback_to_point [evCreateX, evDeleteX] 5 1).1)
       ((get_snapshot [evCreateX, evDeleteX] (some 1) none).objects)) :=
  ⟨by decide, by decide, by decide, by decide,
   rollback_law_amended [evCreateX, evDeleteX] 5 1 (by decide) (by decide)
     (by decide) (by decide)⟩

/-! ## C3: snapshotAt semantics -/

/-- C3 (amended). On every reachable board log: for a positive `atSequence`,
`get_snapshot` replays exactly the events with sequence ≤ `atSequence` in
ascending order; with no cutoff it replays the full history; a zero
`atSequence` is falsy in Python and is treated exactly like no cutoff (full
replay, not the empty snapshot the original claim states); a negative
`atSequence`, a timestamp cutoff, or an empty log behave as claimed
(time filtering, and the empty snapshot with sequence 0 when nothing
qualifies); and one replay step applies `create` as insert of newState keyed
by objectId, `update` as shallow merge onto the existing object (new fields
overwrite, others untouched) and `delete` as removal. -/
theorem snapshot_semantics_amended (log : List Event) (T : Int) (t : Nat)
    (hseq : SequentialLog log) :
    ((1 ≤ T → (get_snapshot log (some T) none).objects
        = replay (log.filter (fun e => decide ((e.sequence_num : Int) ≤ T)))) ∧
     (get_snapshot log none none).objects = replay log ∧
     get_snapshot log (some 0) none = get_snapshot log none none ∧
     (T < 0 → get_snapshot log (some T) none = ⟨0, []⟩) ∧
     (get_snapshot log none (some t)).objects
        = replay (log.filter (fun e => decide (e.created_at ≤ t))) ∧
     (log = [] → get_snapshot log (some T) (some t) = ⟨0, []⟩)) ∧
    ((∀ (σ : ObjMap) (e : Event) (oid : String) (d : Dict),
        e.event_type = "create" → e.object_id = some oid → oid ≠ "" →
        e.new_state = some d → applyEvent σ e = aset σ oid d) ∧
     (∀ (σ : ObjMap) (e : Event) (oid : String) (cur d : Dict),
        e.event_type = "update" → e.object_id = some oid → oid ≠ "" →
        aget σ oid = some cur → e.new_state = some d →
        applyEvent σ e = aset σ oid (dictMerge cur d)) ∧
     (∀ (cur d : Dict) (k : String),
        aget (dictMerge cur d) k
          = match aget d k with | some v => some v | none => aget cur k) ∧
     (∀ (σ : ObjMap) (e : Event) (oid : String),
        e.event_type = "delete" → e.object_id = some oid → oid ≠ "" →
        (aget σ oid).isSome = true → applyEvent σ e = adel σ oid)) := by
  refine ⟨⟨fun hT => get_snapshot_at_sequence log T hseq hT,
    get_snapshot_no_cutoff log hseq,
    get_snapshot_zero_eq_no_cutoff log,
    fun hneg => get_snapshot_neg log T hneg,
    get_snapshot_at_time log t hseq,
    fun hnil => ?_⟩,
    fun σ e oid d => applyEvent_create σ e oid d,
    fun σ e oid cur d ht ho hoid hc hn => applyEvent_update σ e oid cur d ht ho hoid hc hn,
    fun cur d k => aget_dictMerge cur d k,
    fun σ e oid ht ho hoid hs => applyEvent_delete σ e oid ht ho hoid hs⟩
  subst hnil
  rfl

/-- C3 (counterexample). On the one-event log [create X a=1], a snapshot at
`atSequence = 0` does not return the empty object set with sequence 0: the
Python falsiness of 0 selects the full history, so it returns sequence 1 and
the object X. -/
theorem snapshot_zero_counterexample :
    (get_snapshot [evCreateX] (some 0) none).sequence_num = 1 ∧
    (get_snapshot [evCreateX] (some 0) none).objects ≠ [] ∧
    lookup2 ((get_snapshot [evCreateX] (some 0) none).objects) "X" "a"
      = some (Val.num 1) := by
  refine ⟨by decide, ?_, by decide⟩
  decide

/-- C3 (witness). The amended characterization applied to the concrete log
[create X, delete X] with `atSequence = 1`. -/
theorem snapshot_semantics_witness :
    (get_snapshot [evCreateX, evDeleteX] (some 1) none).objects
      = replay (([evCreateX, evDeleteX] : List Event).filter
          (fun e => decide ((e.sequence_num : Int) ≤ 1))) :=
  (snapshot_semantics_amended [evCreateX, evDeleteX] 1 0 (by decide)).1.1 (by decide)

/-! ## C4: sequence numbers are dense, increasing, permanent -/

theorem seqFromB_get (l : List Event) (k : Nat) (h : seqFromB k l = true) :
    ∀ (i : Nat) (hi : i < l.length), (l.get ⟨i, hi⟩).sequence_num = k + i + 1 := by
  induction l generalizing k with
  | nil => intro i hi; cases hi
  | cons x t ih =>
    rw [seqFromB, Bool.and_eq_true, beq_iff_eq] at h
    intro i hi
    cases i with
    | zero => simpa using h.1
    | succ j =>
      have := ih (k + 1) h.2 j (by simpa using Nat.lt_of_succ_lt_succ hi)
      simpa [Nat.add_assoc, Nat.add_comm, Nat.add_left_comm] using this

theorem sequential_foldl_add (ds : List (EventData × Nat)) (acc : List Event)
    (h : SequentialLog acc) :
    SequentialLog (ds.foldl (fun log p => add_event log p.2 p.1) acc) := by
  induction ds generalizing acc with
  | nil => simpa
  | cons p t ih => exact ih _ (sequential_add_event acc p.2 p.1 h)

/-- C4. After any sequence of appends the stored events carry sequence numbers
1, 2, 3, ... in append order (start at 1, strictly increasing, gap-free);
`add_event` only appends, with sequence one past the current length; and
rollback leaves every stored event untouched, only appending new events, the
extended log again carrying the dense numbering. -/
theorem sequence_numbers_invariant (ds : List (EventData × Nat))
    (log : List Event) (now : Nat) (d : EventData) (T : Int) :
    SequentialLog (buildLog ds) ∧
    (∀ (i : Nat) (hi : i < (buildLog ds).length),
       ((buildLog ds).get ⟨i, hi⟩).sequence_num = i + 1) ∧
    add_event log now d = log ++ [mkEvent log now d] ∧
    (mkEvent log now d).sequence_num = log.length + 1 ∧
    (SequentialLog log →
      SequentialLog (rollback_to_point log now T).1 ∧
      (rollback_to_point log now T).1.take log.length = log) := by
  have hbuild : SequentialLog (buildLog ds) :=
    sequential_foldl_add ds [] (by decide)
  refine ⟨hbuild, fun i hi => by simpa using seqFromB_get (buildLog ds) 0 hbuild i hi,
    rfl, by simp [mkEvent], fun hseq => ?_⟩
  unfold rollback_to_point
  dsimp only
  by_cases hemp : (log.filter (fun e => decide (T < (e.sequence_num : Int)))).isEmpty
  · simp [hemp, hseq, List.take_length]
  · simp only [hemp, Bool.false_eq_true, if_false]
    constructor
    · exact foldl_rollbackStep_sequential _ log now hseq
    · obtain ⟨tail, htail⟩ := foldl_rollbackStep_extends
        (sortBySeqDesc (log.filter (fun e => decide (T < (e.sequence_num : Int)))))
        log now
      rw [htail, List.take_left]

/-- C4 (witness). The invariant evaluated on a concrete two-append board and a
rollback to sequence 1. -/
theorem sequence_numbers_invariant_witness :
    SequentialLog (rollback_to_point [evCreateX, evUpdateX] 7 1).1 ∧
    (rollback_to_point [evCreateX, evUpdateX] 7 1).1.take 2 = [evCreateX, evUpdateX] :=
  (sequence_numbers_invariant [] [evCreateX, evUpdateX] 7
    ⟨"create", none, none, none, none, none⟩ 1).2.2.2.2 (by decide)

/-! ## C8: nothing-to-undo rejection -/

/-- C8. `rollback_to_point` is rejected with the "No changes to rollback"
condition exactly when no stored event has sequence number greater than the
target, and on rejection the event log is returned completely unchanged (the
rejection is raised before any compensating event is appended). -/
theorem rollback_nothing_to_undo (log : List Event) (now : Nat) (T : Int) :
    ((rollback_to_point log now T).2 = false ↔
      ∀ e ∈ log, (e.sequence_num : Int) ≤ T) ∧
    ((rollback_to_point log now T).2 = false →
      (rollback_to_point log now T).1 = log) := by
  by_cases hemp : (log.filter (fun e => decide (T < (e.sequence_num : Int)))).isEmpty
  · have hres : rollback_to_point log now T = (log, false) := by
      unfold rollback_to_point
      dsimp only
      rw [if_pos hemp]
    rw [hres]
    have hall : ∀ e ∈ log, (e.sequence_num : Int) ≤ T := by
      rw [List.isEmpty_iff, List.filter_eq_nil_iff] at hemp
      intro e he
      have hne := hemp e he
      simp only [decide_eq_true_eq] at hne
      omega
    exact ⟨⟨fun _ => hall, fun _ => rfl⟩, fun _ => rfl⟩
  · have hres : rollback_to_point log now T
        = ((sortBySeqDesc (log.filter
              (fun e => decide (T < (e.sequence_num : Int))))).foldl
            (fun l e => rollbackStep l now e) log, true) := by
      unfold rollback_to_point
      dsimp only
      rw [if_neg hemp]
    rw [hres]
    constructor
    · constructor
      · intro h
        simp at h
      · intro hall
        exfalso
        apply hemp
        rw [List.isEmpty_iff, List.filter_eq_nil_iff]
        intro e he
        have h2 := hall e he
        simp only [decide_eq_true_eq]
        omega
    · intro h
      simp at h

/-- C8 (witness). A rollback targeting sequence 5 on a one-event board is
rejected and leaves the log unchanged. -/
theorem rollback_nothing_to_undo_witness :
    (rollback_to_point [evCreateX] 0 5).1 = [evCreateX] :=
  (rollback_nothing_to_undo [evCreateX] 0 5).2 (by decide)

/-! ## Spatial chunk index (spatial.py) -/

/-- Python `data.get(key, 0)` for a numeric geometry field; the claims only
exercise integral geometry, embedded as `Int`. -/
def getIntD (d : Dict) (k : String) : Int :=
  match aget d k with
  | some (Val.num n) => n
  | _ => 0

/-- The chunk id string `f"{cx}:{cy}"`. -/
def chunkId (cx cy : Int) : String := toString cx ++ ":" ++ toString cy

/-- Python `range(a, b + 1)` over integers. -/
def intRange (a b : Int) : List Int :=
  (List.range (b + 1 - a).toNat).map (fun i => a + (i : Int))

/-- The chunk ids produced by the nested loop of `add_object`
(spatial.py 123-139): the inclusive grid range of both bounding-box corners,
`ChunkCoord.from_world_coords` being floor division by the chunk size. -/
def objChunkRange (cs : Int) (d : Dict) : List String :=
  let x := getIntD d "x"
  let y := getIntD d "y"
  let w := getIntD d "width"
  let h := getIntD d "height"
  (intRange (Int.fdiv x cs) (Int.fdiv (x + w) cs)).flatMap
    (fun cx => (intRange (Int.fdiv y cs) (Int.fdiv (y + h) cs)).map
      (fun cy => chunkId cx cy))

/-- spatial.py `SpatialIndex`: chunk id → object-id set, object id → payload,
object id → chunk-id set. Python sets are lists queried by membership. -/
structure SpatialIndex where
  chunk_size : Int
  chunks : List (String × List String)
  objects : List (String × Dict)
  object_chunks : List (String × List String)
deriving DecidableEq, Repr

/-- `SpatialIndex.__init__`. -/
def SpatialIndex.init (cs : Int) : SpatialIndex := ⟨cs, [], [], []⟩

/-- The discard loop of `add_object`/`remove_object`:
`if old_chunk in self._chunks: self._chunks[old_chunk].discard(obj_id)`. -/
def discardFromChunks (chunks : List (String × List String)) (oid : String)
    (cids : List String) : List (String × List String) :=
  cids.foldl (fun ch c =>
    match aget ch c with
    | some s => aset ch c (s.filter (fun x => x ≠ oid))
    | none => ch) chunks

/-- One step of the add loop: ensure the chunk's set exists, then add the id. -/
def addToChunk (chunks : List (String × List String)) (c oid : String) :
    List (String × List String) :=
  match aget chunks c with
  | none => aset chunks c [oid]
  | some s => if oid ∈ s then chunks else aset chunks c (s ++ [oid])

/-- spatial.py `SpatialIndex.add_object` (upsert): purge the stale chunk
memberships, insert into every chunk of the new range, replace the payload
and the recorded chunk set. -/
def add_object (idx : SpatialIndex) (oid : String) (data : Dict) : SpatialIndex :=
  let chunks1 :=
    match aget idx.object_chunks oid with
    | some old => discardFromChunks idx.chunks oid old
    | none => idx.chunks
  let cids := objChunkRange idx.chunk_size data
  { idx with
    chunks := cids.foldl (fun ch c => addToChunk ch c oid) chunks1,
    objects := aset idx.objects oid data,
    object_chunks := aset idx.object_chunks oid cids }

/-- spatial.py `SpatialIndex.remove_object`; an unknown id reports `none` and
changes nothing. -/
def remove_object (idx : SpatialIndex) (oid : String) :
    SpatialIndex × Option Dict :=
  match aget idx.objects oid with
  | none => (idx, none)
  | some d =>
    ({ idx with
       chunks := discardFromChunks idx.chunks oid
         ((aget idx.object_chunks oid).getD []),
       objects := adel idx.objects oid,
       object_chunks := adel idx.object_chunks oid }, some d)

/-- spatial.py `SpatialIndex.query_chunks`: payloads of the ids recorded in
each requested chunk, skipping ids without a stored payload. -/
def query_chunks (idx : SpatialIndex) (cids : List String) :
    List (String × List Dict) :=
  cids.map (fun c =>
    (c, match aget idx.chunks c with
        | some s => s.filterMap (fun oid => aget idx.objects oid)
        | none => []))

/-- Membership of an object id in a chunk's id set. -/
def memChunk (idx : SpatialIndex) (c oid : String) : Prop :=
  oid ∈ (aget idx.chunks c).getD []

theorem mem_discardFromChunks (cids : List String)
    (chunks : List (String × List String)) (oid oid' c : String) :
    oid' ∈ (aget (discardFromChunks chunks oid cids) c).getD []
      ↔ (oid' ∈ (aget chunks c).getD [] ∧ ¬(oid' = oid ∧ c ∈ cids)) := by
  induction cids generalizing chunks with
  | nil => simp [discardFromChunks]
  | cons c0 rest ih =>
    rw [show discardFromChunks chunks oid (c0 :: rest)
        = discardFromChunks
            (match aget chunks c0 with
             | some s => aset chunks c0 (s.filter (fun x => x ≠ oid))
             | none => chunks) oid rest
      from rfl]
    rw [ih]
    cases hs : aget chunks c0 with
    | none =>
      by_cases hc : c = c0
      · subst hc
        simp [hs]
      · have hcm : c ∈ c0 :: rest ↔ c ∈ rest := by simp [hc]
        simp [hcm]
    | some s =>
      by_cases hc : c = c0
      · subst hc
        rw [show aget (aset chunks c (s.filter (fun x => x ≠ oid))) c
            = some (s.filter (fun x => x ≠ oid)) from aget_aset_self _ _ _]
        simp only [hs, Option.getD_some, List.mem_filter, List.mem_cons,
          decide_eq_true_eq]
        tauto
      · rw [aget_aset_ne _ _ _ _ hc]
        have hcm : c ∈ c0 :: rest ↔ c ∈ rest := by simp [hc]
        simp [hcm]

theorem mem_addToChunk (chunks : List (String × List String)) (c0 oid oid' c : String) :
    oid' ∈ (aget (addToChunk chunks c0 oid) c).getD []
      ↔ (oid' ∈ (aget chunks c).getD [] ∨ (oid' = oid ∧ c = c0)) := by
  unfold addToChunk
  cases hs : aget chunks c0 with
  | none =>
    by_cases hc : c = c0
    · subst hc
      rw [show aget (aset chunks c [oid]) c = some [oid] from aget_aset_self _ _ _]
      simp [hs]
    · rw [aget_aset_ne _ _ _ _ hc]
      simp [hc]
  | some s =>
    by_cases hmem : oid ∈ s
    · simp only [if_pos hmem]
      by_cases hc : c = c0
      · subst hc
        rw [hs]
        simp only [Option.getD_some]
        constructor
        · exact fun h => Or.inl h
        · rintro (h | ⟨rfl, -⟩)
          · exact h
          · exact hmem
      · simp [hc]
    · simp only [if_neg hmem]
      by_cases hc : c = c0
      · subst hc
        rw [show aget (aset chunks c (s ++ [oid])) c = some (s ++ [oid])
          from aget_aset_self _ _ _]
        rw [hs]
        simp
      · rw [aget_aset_ne _ _ _ _ hc]
        simp [hc]

theorem mem_addChunks (cids : List String) (chunks : List (String × List String))
    (oid oid' c : String) :
    oid' ∈ (aget (cids.foldl (fun ch c' => addToChunk ch c' oid) chunks) c).getD []
      ↔ (oid' ∈ (aget chunks c).getD [] ∨ (oid' = oid ∧ c ∈ cids)) := by
  induction cids generalizing chunks with
  | nil => simp
  | cons c0 rest ih =>
    rw [List.foldl_cons, ih, mem_addToChunk]
    by_cases ho : oid' = oid
    · subst ho
      by_cases hc : c = c0
      · subst hc
        simp
      · have hcm : c ∈ c0 :: rest ↔ c ∈ rest := by simp [hc]
        simp [hc, hcm]
    · simp [ho]

/-! ## The chunk-membership invariant -/

/-- The well-formedness of a spatial index: unique keys, the payload store and
the chunk-set store share their domain, an id sits in a chunk's set exactly
when that chunk is recorded for it, and the recorded chunk set of a present
object is exactly the grid range of its stored geometry. -/
def InvIndex (idx : SpatialIndex) : Prop :=
  keysNodup idx.objects ∧ keysNodup idx.object_chunks ∧
  (∀ oid, (aget idx.objects oid).isSome = (aget idx.object_chunks oid).isSome) ∧
  (∀ oid c, oid ∈ (aget idx.chunks c).getD [] ↔
     ∃ l, aget idx.object_chunks oid = some l ∧ c ∈ l) ∧
  (∀ oid l, aget idx.object_chunks oid = some l →
     ∀ c, (c ∈ l ↔
       c ∈ objChunkRange idx.chunk_size ((aget idx.objects oid).getD [])))

theorem invIndex_init (cs : Int) : InvIndex (SpatialIndex.init cs) := by
  refine ⟨by simp [keysNodup, SpatialIndex.init], by simp [keysNodup, SpatialIndex.init],
    fun oid => rfl, fun oid c => ?_, fun oid l h => by cases h⟩
  simp [SpatialIndex.init, aget]

theorem invIndex_add_core (idx : SpatialIndex) (oid : String) (data : Dict)
    (ch1 : List (String × List String))
    (hko : keysNodup idx.objects) (hkoc : keysNodup idx.object_chunks)
    (hdom : ∀ o, (aget idx.objects o).isSome = (aget idx.object_chunks o).isSome)
    (hmem : ∀ o c, o ∈ (aget idx.chunks c).getD [] ↔
       ∃ l, aget idx.object_chunks o = some l ∧ c ∈ l)
    (hrange : ∀ o l, aget idx.object_chunks o = some l →
       ∀ c, (c ∈ l ↔
         c ∈ objChunkRange idx.chunk_size ((aget idx.objects o).getD [])))
    (hA : ∀ c, oid ∉ (aget ch1 c).getD [])
    (hB : ∀ c o', o' ≠ oid →
       ((o' ∈ (aget ch1 c).getD []) ↔ o' ∈ (aget idx.chunks c).getD [])) :
    InvIndex
      { chunk_size := idx.chunk_size,
        chunks := (objChunkRange idx.chunk_size data).foldl
          (fun ch c => addToChunk ch c oid) ch1,
        objects := aset idx.objects oid data,
        object_chunks := aset idx.object_chunks oid
          (objChunkRange idx.chunk_size data) } := by
  refine ⟨keysNodup_aset _ _ _ hko, keysNodup_aset _ _ _ hkoc, ?_, ?_, ?_⟩
  · intro o
    show (aget (aset idx.objects oid data) o).isSome
      = (aget (aset idx.object_chunks oid (objChunkRange idx.chunk_size data)) o).isSome
    by_cases ho : o = oid
    · subst ho
      rw [aget_aset_self, aget_aset_self]
      rfl
    · rw [aget_aset_ne _ _ _ _ ho, aget_aset_ne _ _ _ _ ho]
      exact hdom o
  · intro o c
    show o ∈ (aget ((objChunkRange idx.chunk_size data).foldl
        (fun ch c => addToChunk ch c oid) ch1) c).getD [] ↔ _
    rw [mem_addChunks]
    by_cases ho : o = oid
    · subst ho
      rw [show aget (aset idx.object_chunks o (objChunkRange idx.chunk_size data)) o
          = some (objChunkRange idx.chunk_size data) from aget_aset_self _ _ _]
      constructor
      · rintro (hm | ⟨-, hc⟩)
        · exact absurd hm (hA c)
        · exact ⟨_, rfl, hc⟩
      · rintro ⟨l, hl, hc⟩
        injection hl with hl
        subst hl
        exact Or.inr ⟨rfl, hc⟩
    · rw [aget_aset_ne _ _ _ _ ho]
      constructor
      · rintro (hm | ⟨he, -⟩)
        · exact (hmem o c).mp ((hB c o ho).mp hm)
        · exact absurd he ho
      · intro hr
        exact Or.inl ((hB c o ho).mpr ((hmem o c).mpr hr))
  · intro o l hl c
    by_cases ho : o = oid
    · subst ho
      rw [show aget (aset idx.object_chunks o (objChunkRange idx.chunk_size data)) o
          = some (objChunkRange idx.chunk_size data) from aget_aset_self _ _ _] at hl
      injection hl with hl
      subst hl
      show c ∈ objChunkRange idx.chunk_size data
        ↔ c ∈ objChunkRange idx.chunk_size ((aget (aset idx.objects o data) o).getD [])
      rw [aget_aset_self]
      rfl
    · rw [show aget (aset idx.object_chunks oid (objChunkRange idx.chunk_size data)) o
          = aget idx.object_chunks o from aget_aset_ne _ _ _ _ ho] at hl
      show c ∈ l ↔ c ∈ objChunkRange idx.chunk_size ((aget (aset idx.objects oid data) o).getD [])
      rw [aget_aset_ne _ _ _ _ ho]
      exact hrange o l hl c

theorem invIndex_add_object (idx : SpatialIndex) (oid : String) (data : Dict)
    (h : InvIndex idx) : InvIndex (add_object idx oid data) := by
  obtain ⟨hko, hkoc, hdom, hmem, hrange⟩ := h
  cases hoc : aget idx.object_chunks oid with
  | none =>
    have heq : add_object idx oid data
        = { chunk_size := idx.chunk_size,
            chunks := (objChunkRange idx.chunk_size data).foldl
              (fun ch c => addToChunk ch c oid) idx.chunks,
            objects := aset idx.objects oid data,
            object_chunks := aset idx.object_chunks oid
              (objChunkRange idx.chunk_size data) } := by
      unfold add_object
      rw [hoc]
    rw [heq]
    refine invIndex_add_core idx oid data idx.chunks hko hkoc hdom hmem hrange ?_
      (fun c o' _ => Iff.rfl)
    intro c hm
    obtain ⟨l, hl, -⟩ := (hmem oid c).mp hm
    rw [hoc] at hl
    cases hl
  | some old =>
    have heq : add_object idx oid data
        = { chunk_size := idx.chunk_size,
            chunks := (objChunkRange idx.chunk_size data).foldl
              (fun ch c => addToChunk ch c oid)
              (discardFromChunks idx.chunks oid old),
            objects := aset idx.objects oid data,
            object_chunks := aset idx.object_chunks oid
              (objChunkRange idx.chunk_size data) } := by
      unfold add_object
      rw [hoc]
    rw [heq]
    refine invIndex_add_core idx oid data _ hko hkoc hdom hmem hrange ?_ ?_
    · intro c
      rw [mem_discardFromChunks]
      rintro ⟨hm, hnr⟩
      obtain ⟨l, hl, hcl⟩ := (hmem oid c).mp hm
      rw [hoc] at hl
      injection hl with hl
      subst hl
      exact hnr ⟨rfl, hcl⟩
    · intro c o' hne
      rw [mem_discardFromChunks]
      constructor
      · exact fun h => h.1
      · exact fun h => ⟨h, fun he => hne he.1⟩

theorem invIndex_remove_object (idx : SpatialIndex) (oid : String)
    (h : InvIndex idx) : InvIndex (remove_object idx oid).1 := by
  obtain ⟨hko, hkoc, hdom, hmem, hrange⟩ := h
  cases hobj : aget idx.objects oid with
  | none =>
    have heq : (remove_object idx oid).1 = idx := by
      unfold remove_object
      rw [hobj]
    rw [heq]
    exact ⟨hko, hkoc, hdom, hmem, hrange⟩
  | some d =>
    have hsome : (aget idx.object_chunks oid).isSome = true := by
      rw [← hdom oid, hobj]
      rfl
    obtain ⟨old, hold⟩ := Option.isSome_iff_exists.mp hsome
    have heq : (remove_object idx oid).1
        = { chunk_size := idx.chunk_size,
            chunks := discardFromChunks idx.chunks oid old,
            objects := adel idx.objects oid,
            object_chunks := adel idx.object_chunks oid } := by
      unfold remove_object
      rw [hobj, hold]
      rfl
    rw [heq]
    refine ⟨keysNodup_adel _ _ hko, keysNodup_adel _ _ hkoc, ?_, ?_, ?_⟩
    · intro o
      show (aget (adel idx.objects oid) o).isSome
        = (aget (adel idx.object_chunks oid) o).isSome
      by_cases ho : o = oid
      · subst ho
        rw [aget_adel_self _ _ hko, aget_adel_self _ _ hkoc]
        rfl
      · rw [aget_adel_ne _ _ _ ho, aget_adel_ne _ _ _ ho]
        exact hdom o
    · intro o c
      show o ∈ (aget (discardFromChunks idx.chunks oid old) c).getD [] ↔ _
      rw [mem_discardFromChunks]
      by_cases ho : o = oid
      · subst ho
        rw [show aget (adel idx.object_chunks o) o = none
          from aget_adel_self _ _ hkoc]
        constructor
        · rintro ⟨hm, hnr⟩
          obtain ⟨l, hl, hcl⟩ := (hmem o c).mp hm
          rw [hold] at hl
          injection hl with hl
          subst hl
          exact absurd ⟨rfl, hcl⟩ hnr
        · rintro ⟨l, hl, -⟩
          cases hl
      · rw [aget_adel_ne _ _ _ ho]
        constructor
        · exact fun hh => (hmem o c).mp hh.1
        · exact fun hh => ⟨(hmem o c).mpr hh, fun he => ho he.1⟩
    · intro o l hl c
      show c ∈ l ↔ c ∈ objChunkRange idx.chunk_size ((aget (adel idx.objects oid) o).getD [])
      by_cases ho : o = oid
      · subst ho
        rw [aget_adel_self _ _ hkoc] at hl
        cases hl
      · rw [aget_adel_ne _ _ _ ho] at hl
        rw [aget_adel_ne _ _ _ ho]
        exact hrange o l hl c

/-- One upsert or remove operation on a board's spatial index. -/
inductive SpatialOp where
  | upsert (oid : String) (data : Dict)
  | remove (oid : String)

def applySpatialOp (idx : SpatialIndex) : SpatialOp → SpatialIndex
  | SpatialOp.upsert oid data => add_object idx oid data
  | SpatialOp.remove oid => (remove_object idx oid).1

/-- Every index reachable from a fresh per-board index by upserts/removes. -/
def runSpatialOps (cs : Int) (ops : List SpatialOp) : SpatialIndex :=
  ops.foldl applySpatialOp (SpatialIndex.init cs)

theorem invIndex_foldl (ops : List SpatialOp) (idx : SpatialIndex)
    (h : InvIndex idx) : InvIndex (ops.foldl applySpatialOp idx) := by
  induction ops generalizing idx with
  | nil => simpa
  | cons op t ih =>
    refine ih _ ?_
    cases op with
    | upsert oid data => exact invIndex_add_object idx oid data h
    | remove oid => exact invIndex_remove_object idx oid h

theorem invIndex_runSpatialOps (cs : Int) (ops : List SpatialOp) :
    InvIndex (runSpatialOps cs ops) :=
  invIndex_foldl ops (SpatialIndex.init cs) (invIndex_init cs)

/-! ## C5: chunk membership is exactly the bounding-box grid range -/

/-- The spec scenario object A at (50,50) with extent 100×100. -/
def objA : Dict :=
  [("id", Val.str "A"), ("x", Val.num 50), ("y", Val.num 50),
   ("width", Val.num 100), ("height", Val.num 100)]

/-- Object A after being moved to (1500,1500). -/
def objAMoved : Dict :=
  [("id", Val.str "A"), ("x", Val.num 1500), ("y", Val.num 1500),
   ("width", Val.num 100), ("height", Val.num 100)]

/-- C5. After every sequence of upserts and removes on a fresh per-board
index, each present object sits in exactly the chunks of the inclusive grid
range `floor(min/chunkSize) ... floor(max/chunkSize)` of its current stored
geometry on each axis, and an absent object sits in no chunk; in particular,
with chunk size 1000, object A at (50,50,100,100) occupies exactly chunk
"0:0", and after the re-upsert at (1500,1500) it has left "0:0" and occupies
"1:1", so `query_chunks ["0:0"]` is empty and `query_chunks ["1:1"]`
returns A. -/
theorem chunk_membership_invariant (cs : Int) (ops : List SpatialOp) :
    ((runSpatialOps cs ops).chunk_size = cs ∧
     (∀ oid d, aget (runSpatialOps cs ops).objects oid = some d →
        ∀ c, (memChunk (runSpatialOps cs ops) c oid ↔
          c ∈ objChunkRange (runSpatialOps cs ops).chunk_size d)) ∧
     (∀ oid, aget (runSpatialOps cs ops).objects oid = none →
        ∀ c, ¬ memChunk (runSpatialOps cs ops) c oid)) ∧
    (objChunkRange 1000 objA = ["0:0"] ∧
     objChunkRange 1000 objAMoved = ["1:1"] ∧
     query_chunks (runSpatialOps 1000
       [SpatialOp.upsert "A" objA, SpatialOp.upsert "A" objAMoved]) ["0:0"]
       = [("0:0", [])] ∧
     query_chunks (runSpatialOps 1000
       [SpatialOp.upsert "A" objA, SpatialOp.upsert "A" objAMoved]) ["1:1"]
       = [("1:1", [objAMoved])]) := by
  obtain ⟨hko, hkoc, hdom, hmem, hrange⟩ := invIndex_runSpatialOps cs ops
  have hcs : (runSpatialOps cs ops).chunk_size = cs := by
    have haux : ∀ (l : List SpatialOp) (idx : SpatialIndex),
        (l.foldl applySpatialOp idx).chunk_size = idx.chunk_size := by
      intro l
      induction l with
      | nil => intro idx; rfl
      | cons op t ih =>
        intro idx
        rw [List.foldl_cons, ih]
        cases op with
        | upsert oid data => rfl
        | remove oid =>
          show (remove_object idx oid).1.chunk_size = idx.chunk_size
          unfold remove_object
          cases aget idx.objects oid <;> rfl
    exact haux ops (SpatialIndex.init cs)
  refine ⟨⟨hcs, ?_, ?_⟩, by decide, by decide, by decide, by decide⟩
  · intro oid d hd c
    have hsome : (aget (runSpatialOps cs ops).object_chunks oid).isSome = true := by
      rw [← hdom oid, hd]
      rfl
    obtain ⟨l, hl⟩ := Option.isSome_iff_exists.mp hsome
    unfold memChunk
    rw [hmem oid c]
    constructor
    · rintro ⟨l', hl', hc⟩
      rw [hl] at hl'
      injection hl' with hl'
      subst hl'
      have := (hrange oid l hl c).mp hc
      rwa [hd] at this
    · intro hc
      refine ⟨l, hl, ?_⟩
      rw [hrange oid l hl c, hd]
      exact hc
  · intro oid hnone c
    unfold memChunk
    rw [hmem oid c]
    rintro ⟨l, hl, -⟩
    have : (aget (runSpatialOps cs ops).object_chunks oid).isSome = true := by
      rw [hl]
      rfl
    rw [← hdom oid, hnone] at this
    cases this

/-- C5 (witness). The invariant instantiated on the concrete two-upsert board:
after the move, membership of "A" in any chunk is exactly membership in the
grid range of the moved geometry. -/
theorem chunk_membership_invariant_witness :
    memChunk (runSpatialOps 1000
      [SpatialOp.upsert "A" objA, SpatialOp.upsert "A" objAMoved]) "1:1" "A"
    ↔ "1:1" ∈ objChunkRange
        (runSpatialOps 1000
          [SpatialOp.upsert "A" objA, SpatialOp.upsert "A" objAMoved]).chunk_size
        objAMoved :=
  (chunk_membership_invariant 1000
    [SpatialOp.upsert "A" objA, SpatialOp.upsert "A" objAMoved]).1.2.1
    "A" objAMoved (by decide) "1:1"

/-! ## C6: upsert idempotence -/

/-- Chunk membership after one upsert: the object leaves the chunks recorded
for it, enters exactly the new grid range, and no other id moves. -/
theorem mem_add_object (j : SpatialIndex) (oid oid' c : String) (d : Dict) :
    memChunk (add_object j oid d) c oid'
      ↔ ((memChunk j c oid' ∧
            ¬(oid' = oid ∧ ∃ old, aget j.object_chunks oid = some old ∧ c ∈ old))
         ∨ (oid' = oid ∧ c ∈ objChunkRange j.chunk_size d)) := by
  unfold memChunk
  cases hoc : aget j.object_chunks oid with
  | none =>
    have hch : (add_object j oid d).chunks
        = (objChunkRange j.chunk_size d).foldl
            (fun ch c' => addToChunk ch c' oid) j.chunks := by
      unfold add_object
      rw [hoc]
    rw [hch, mem_addChunks]
    simp [hoc]
  | some old =>
    have hch : (add_object j oid d).chunks
        = (objChunkRange j.chunk_size d).foldl
            (fun ch c' => addToChunk ch c' oid)
            (discardFromChunks j.chunks oid old) := by
      unfold add_object
      rw [hoc]
    rw [hch, mem_addChunks, mem_discardFromChunks]
    constructor
    · rintro (⟨hm, hnr⟩ | hp)
      · refine Or.inl ⟨hm, fun ⟨he, old', ho', hc'⟩ => ?_⟩
        injection ho' with ho'
        subst ho'
        exact hnr ⟨he, hc'⟩
      · exact Or.inr hp
    · rintro (⟨hm, hnr⟩ | hp)
      · exact Or.inl ⟨hm, fun ⟨he, hc'⟩ => hnr ⟨he, old, rfl, hc'⟩⟩
      · exact Or.inr hp

/-- C6. For every spatial index state, object id and payload, upserting the
identical payload twice yields the same index state as upserting it once:
the same stored payload table, the same recorded chunk sets, the same object
count, and the same chunk membership everywhere. -/
theorem upsert_idempotent (idx : SpatialIndex) (oid : String) (d : Dict) :
    (add_object (add_object idx oid d) oid d).objects
      = (add_object idx oid d).objects ∧
    (add_object (add_object idx oid d) oid d).object_chunks
      = (add_object idx oid d).object_chunks ∧
    (add_object (add_object idx oid d) oid d).objects.length
      = (add_object idx oid d).objects.length ∧
    (∀ c oid', memChunk (add_object (add_object idx oid d) oid d) c oid'
      ↔ memChunk (add_object idx oid d) c oid') := by
  have hcs : (add_object idx oid d).chunk_size = idx.chunk_size := rfl
  have hobj1 : (add_object idx oid d).objects = aset idx.objects oid d := rfl
  have hocs1 : (add_object idx oid d).object_chunks
      = aset idx.object_chunks oid (objChunkRange idx.chunk_size d) := rfl
  have hget : aget (add_object idx oid d).object_chunks oid
      = some (objChunkRange idx.chunk_size d) := by
    rw [hocs1]
    exact aget_aset_self _ _ _
  have h1 : (add_object (add_object idx oid d) oid d).objects
      = (add_object idx oid d).objects := by
    show aset (add_object idx oid d).objects oid d = _
    rw [hobj1, aset_aset]
  have h2 : (add_object (add_object idx oid d) oid d).object_chunks
      = (add_object idx oid d).object_chunks := by
    show aset (add_object idx oid d).object_chunks oid
        (objChunkRange (add_object idx oid d).chunk_size d) = _
    rw [hcs, hocs1, aset_aset]
  refine ⟨h1, h2, by rw [h1], ?_⟩
  intro c oid'
  rw [mem_add_object (add_object idx oid d) oid oid' c d, hget, hcs]
  have hP : (oid' = oid ∧ c ∈ objChunkRange idx.chunk_size d) →
      memChunk (add_object idx oid d) c oid' := fun hp =>
    (mem_add_object idx oid oid' c d).mpr (Or.inr hp)
  constructor
  · rintro (⟨hm, -⟩ | hp)
    · exact hm
    · exact hP hp
  · intro hm
    by_cases hp : oid' = oid ∧ c ∈ objChunkRange idx.chunk_size d
    · exact Or.inr hp
    · refine Or.inl ⟨hm, fun ⟨he, old', ho', hc'⟩ => ?_⟩
      injection ho' with ho'
      subst ho'
      exact hp ⟨he, hc'⟩

/-! ## C2: what the rollback endpoint touches -/

/-- The per-board server state the dispatch layer maintains: the event store
of history.py and the spatial index of spatial.py. -/
structure BoardState where
  log : List Event
  index : SpatialIndex
deriving DecidableEq, Repr

/-- The rollback REST endpoint (history.py `rollback_to_point`) acting on the
whole per-board state: it reads and extends only the event store — the module
never imports the spatial index or the connection manager, so the index is
returned untouched and no message is broadcast. -/
def rollback_endpoint (s : BoardState) (now : Nat) (target : Int) :
    BoardState × Bool :=
  let r := rollback_to_point s.log now target
  ({ s with log := r.1 }, r.2)

/-- C2 (violated by the code; evaluation at the failing input). On a board
whose only event created object X, which the dispatch layer also upserted
into the spatial index, a successful rollback to sequence 0 appends the
compensating delete to the log — after which replaying the log no longer
contains X — yet the spatial index still stores X with its old payload:
the compensating events are not applied to the spatial index (nor broadcast),
unlike organic mutations. -/
theorem rollback_compensation_not_dispatched :
    (rollback_endpoint
        ⟨[evCreateX], add_object (SpatialIndex.init 1000) "X" [("a", Val.num 1)]⟩
        1 0).2 = true ∧
    aget (replay (rollback_endpoint
        ⟨[evCreateX], add_object (SpatialIndex.init 1000) "X" [("a", Val.num 1)]⟩
        1 0).1.log) "X" = none ∧
    aget (rollback_endpoint
        ⟨[evCreateX], add_object (SpatialIndex.init 1000) "X" [("a", Val.num 1)]⟩
        1 0).1.index.objects "X" = some [("a", Val.num 1)] ∧
    (rollback_endpoint
        ⟨[evCreateX], add_object (SpatialIndex.init 1000) "X" [("a", Val.num 1)]⟩
        1 0).1.index
      = add_object (SpatialIndex.init 1000) "X" [("a", Val.num 1)] := by
  refine ⟨by decide, by decide, by decide, rfl⟩

/-! ## C7: broadcast exclusion (manager.py ConnectionManager.broadcast) -/

/-- The presentation state of one connected session the broadcast loop walks
(manager.py `ConnectedUser`, the fields the claims mention). -/
structure ConnectedUser where
  user_id : String
  display_name : String
  color : String
deriving DecidableEq, Repr

/-- Python truthiness of `exclude_user : str | None` in
`if exclude_user and user_id == exclude_user:` — falsy for both `None` and
the empty string. -/
def strTruthy : Option String → Bool
  | none => false
  | some s => s != ""

/-- manager.py `ConnectionManager.broadcast` over one board's connection
dict: walks the sessions in order, skips a session only when `exclude_user`
is truthy and equal to its user id, attempts delivery (a failing transport
adds the session to the disconnect list instead of aborting the loop).
Returns the user ids that received the message and the ids collected for
disconnect cleanup. -/
def broadcast (conns : List (String × ConnectedUser))
    (exclude_user : Option String) (sendFails : String → Bool) :
    List String × List String :=
  conns.foldl (fun acc p =>
    if strTruthy exclude_user && p.1 == exclude_user.getD "" then acc
    else if sendFails p.1 then (acc.1, acc.2 ++ [p.1])
    else (acc.1 ++ [p.1], acc.2)) ([], [])

theorem broadcast_foldl_aux (conns : List (String × ConnectedUser))
    (exclude_user : Option String) (sendFails : String → Bool)
    (acc : List String × List String) :
    (conns.foldl (fun acc p =>
      if strTruthy exclude_user && p.1 == exclude_user.getD "" then acc
      else if sendFails p.1 then (acc.1, acc.2 ++ [p.1])
      else (acc.1 ++ [p.1], acc.2)) acc).1
    = acc.1 ++ (conns.map Prod.fst).filter
        (fun uid => !(strTruthy exclude_user && uid == exclude_user.getD "")
          && !sendFails uid) := by
  induction conns generalizing acc with
  | nil => simp
  | cons p t ih =>
    rw [List.foldl_cons, ih]
    by_cases h1 : strTruthy exclude_user && p.1 == exclude_user.getD ""
    · simp only [List.map_cons, List.filter_cons]
      rw [if_pos h1, if_neg (by simp [h1])]
    · by_cases h2 : sendFails p.1
      · simp [h1, h2]
      · simp only [List.map_cons, List.filter_cons]
        rw [if_neg h1, if_neg (by simp [h2])]
        simp only [Bool.not_eq_true] at h2
        simp [h1, h2, List.append_assoc]

/-- The delivered list of one broadcast pass: the connected ids, minus the
truthy excluded id, minus the failing transports. -/
theorem broadcast_delivered (conns : List (String × ConnectedUser))
    (exclude_user : Option String) (sendFails : String → Bool) :
    (broadcast conns exclude_user sendFails).1
    = (conns.map Prod.fst).filter
        (fun uid => !(strTruthy exclude_user && uid == exclude_user.getD "")
          && !sendFails uid) := by
  unfold broadcast
  rw [broadcast_foldl_aux]
  rfl

theorem filter_ne_length_of_nodup (l : List String) (U : String)
    (hnd : l.Nodup) (hmem : U ∈ l) :
    (l.filter (fun uid => uid != U)).length + 1 = l.length := by
  induction l with
  | nil => cases hmem
  | cons a t ih =>
    rw [List.nodup_cons] at hnd
    rcases List.mem_cons.mp hmem with rfl | hmem'
    · have hfil : t.filter (fun uid => uid != U) = t := by
        rw [List.filter_eq_self]
        intro x hx
        simp only [bne_iff_ne, ne_eq, decide_eq_true_eq]
        exact fun he => hnd.1 (he ▸ hx)
      simp [List.filter_cons, hfil]
    · have ha : (a != U) = true := by
        simp only [bne_iff_ne, ne_eq]
        exact fun he => hnd.1 (he ▸ hmem')
      rw [List.filter_cons, if_pos ha, List.length_cons, List.length_cons]
      rw [← ih hnd.2 hmem']

/-- C7 (amended). For a board with connected sessions keyed by distinct user
ids and a non-empty excluded id U among them: the message is never delivered
to U, it is delivered to exactly the other sessions minus any failing
transports, and with no failures exactly N−1 of the N sessions receive it.
When U is the empty string, Python's truthiness check skips the exclusion
entirely and every session receives the message. -/
theorem broadcast_exclusion_amended (conns : List (String × ConnectedUser))
    (U : String) (sendFails : String → Bool)
    (hnd : (conns.map Prod.fst).Nodup) (hU : U ≠ "")
    (hmem : U ∈ conns.map Prod.fst) :
    U ∉ (broadcast conns (some U) sendFails).1 ∧
    (broadcast conns (some U) sendFails).1
      = (conns.map Prod.fst).filter (fun uid => uid != U && !sendFails uid) ∧
    ((∀ uid, sendFails uid = false) →
      (broadcast conns (some U) sendFails).1.length + 1 = conns.length) := by
  have htr : strTruthy (some U) = true := by
    simp [strTruthy, hU]
  have heq : (broadcast conns (some U) sendFails).1
      = (conns.map Prod.fst).filter (fun uid => uid != U && !sendFails uid) := by
    rw [broadcast_delivered]
    apply List.filter_congr
    intro uid _
    rw [htr]
    simp [bne]
  refine ⟨?_, heq, ?_⟩
  · rw [heq]
    intro hin
    have := List.mem_filter.mp hin
    simp at this
  · intro hnofail
    rw [heq]
    have : (conns.map Prod.fst).filter (fun uid => uid != U && !sendFails uid)
        = (conns.map Prod.fst).filter (fun uid => uid != U) := by
      apply List.filter_congr
      intro uid _
      rw [hnofail uid]
      simp
    rw [this, filter_ne_length_of_nodup _ U hnd hmem, List.length_map]

/-- A session whose user id is the empty string. -/
def emptyIdUser : ConnectedUser := ⟨"", "Anon", "#FF6B6B"⟩

/-- C7 (counterexample). With a connected session whose user id is the empty
string and `exclude_user` equal to that id, the guard
`if exclude_user and user_id == exclude_user` is falsy, so no exclusion
happens: the supposedly excluded connected user receives the message. -/
theorem broadcast_exclusion_counterexample :
    "" ∈ (("" : String) :: []).map id ∧
    (broadcast [("", emptyIdUser)] (some "") (fun _ => false)).1 = [""] := by
  refine ⟨by decide, by decide⟩

/-- C7 (witness). Two sessions a and b, excluding a, no failures: only b is
delivered to (exactly N−1 = 1 of 2). -/
theorem broadcast_exclusion_witness :
    "a" ∉ (broadcast [("a", ⟨"a", "A", "#FF6B6B"⟩), ("b", ⟨"b", "B", "#4ECDC4"⟩)]
      (some "a") (fun _ => false)).1 ∧
    (broadcast [("a", ⟨"a", "A", "#FF6B6B"⟩), ("b", ⟨"b", "B", "#4ECDC4"⟩)]
      (some "a") (fun _ => false)).1.length + 1 = 2 := by
  have h := broadcast_exclusion_amended
    [("a", ⟨"a", "A", "#FF6B6B"⟩), ("b", ⟨"b", "B", "#4ECDC4"⟩)]
    "a" (fun _ => false) (by decide) (by decide) (by decide)
  exact ⟨h.1, h.2.2 (fun _ => rfl)⟩

/-! ## C9: the default voice channel (manager.py) -/

/-- The board-scoped voice-channel registries: board id → (channel id →
channel record). -/
abbrev VoiceChannels := List (String × List (String × Dict))

/-- The record `_ensure_default_voice_channel` creates. -/
def defaultVoiceChannel : Dict :=
  [("id", Val.str "voice-general"), ("name", Val.str "Allgemein")]

/-- manager.py `_ensure_default_voice_channel`: create the board entry and the
reserved "voice-general" channel if missing. -/
def ensure_default_voice_channel (vc : VoiceChannels) (board : String) :
    VoiceChannels :=
  let vc1 := if (aget vc board).isSome then vc else aset vc board []
  let bm := (aget vc1 board).getD []
  if (aget bm "voice-general").isSome then vc1
  else aset vc1 board (aset bm "voice-general" defaultVoiceChannel)

/-- manager.py `get_voice_channels`: ensure the default, then list the board's
channel records; returns the updated registry and the listing. -/
def get_voice_channels (vc : VoiceChannels) (board : String) :
    VoiceChannels × List Dict :=
  let vc1 := ensure_default_voice_channel vc board
  (vc1, ((aget vc1 board).getD []).map Prod.snd)

/-- manager.py `upsert_voice_channel`: ensure the default, then store the
channel under its `id` when that id is truthy (the registries only ever hold
string ids). -/
def upsert_voice_channel (vc : VoiceChannels) (board : String)
    (channel : Dict) : VoiceChannels :=
  let vc1 := ensure_default_voice_channel vc board
  match aget channel "id" with
  | some (Val.str cid) =>
    if cid = "" then vc1
    else aset vc1 board (aset ((aget vc1 board).getD []) cid channel)
  | _ => vc1

/-- manager.py `remove_voice_channel`: delete the channel id if present, then
prune the board entry if its channel dict became empty. No id, the reserved
"voice-general" included, is protected. -/
def remove_voice_channel (vc : VoiceChannels) (board cid : String) :
    VoiceChannels :=
  let vc1 :=
    match aget vc board with
    | some bm => if (aget bm cid).isSome then aset vc board (adel bm cid) else vc
    | none => vc
  match aget vc1 board with
  | some bm => if bm.isEmpty then adel vc1 board else vc1
  | none => vc1

/-- The board currently stores the reserved default channel id. -/
def hasDefaultChannel (vc : VoiceChannels) (board : String) : Bool :=
  match aget vc board with
  | some bm => (aget bm "voice-general").isSome
  | none => false

theorem hasDefault_ensure (vc : VoiceChannels) (board : String) :
    hasDefaultChannel (ensure_default_voice_channel vc board) board = true := by
  unfold ensure_default_voice_channel hasDefaultChannel
  dsimp only
  by_cases hb : (aget vc board).isSome
  · rw [if_pos hb]
    obtain ⟨bm, hbm⟩ := Option.isSome_iff_exists.mp hb
    by_cases hd : (aget ((aget vc board).getD []) "voice-general").isSome
    · rw [if_pos hd, hbm]
      rw [hbm] at hd
      exact hd
    · rw [if_neg hd, aget_aset_self]
      dsimp only
      rw [aget_aset_self]
      rfl
  · rw [if_neg hb]
    have hb2 : aget (aset vc board []) board = some [] := aget_aset_self _ _ _
    rw [hb2]
    have hd : ¬((aget ([] : List (String × Dict)) "voice-general").isSome = true) := by
      simp [aget]
    rw [if_neg (by simpa using hd), aget_aset_self]
    dsimp only
    rw [aget_aset_self]
    rfl

/-- C9 (amended). For every registry state: the default channel
"voice-general" is lazily created by every operation that references the
board's channels (ensure, listing, upsert), but the channel-remove operation
with the reserved id deletes it like any other channel — only a later
reference recreates it. -/
theorem default_voice_channel_amended (vc : VoiceChannels) (board : String)
    (ch : Dict) (hndv : keysNodup vc)
    (hndb : ∀ bm, aget vc board = some bm → keysNodup bm) :
    hasDefaultChannel (ensure_default_voice_channel vc board) board = true ∧
    hasDefaultChannel ((get_voice_channels vc board).1) board = true ∧
    hasDefaultChannel (upsert_voice_channel vc board ch) board = true ∧
    (hasDefaultChannel vc board = true →
      hasDefaultChannel (remove_voice_channel vc board "voice-general") board
        = false) ∧
    hasDefaultChannel (ensure_default_voice_channel
      (remove_voice_channel vc board "voice-general") board) board = true := by
  have hens := hasDefault_ensure vc board
  refine ⟨hens, hens, ?_, ?_, hasDefault_ensure _ board⟩
  · unfold upsert_voice_channel
    dsimp only
    cases hid : aget ch "id" with
    | none => exact hens
    | some v =>
      cases v with
      | num n => exact hens
      | str cid =>
        dsimp only
        by_cases hc : cid = ""
        · rw [if_pos hc]
          exact hens
        · rw [if_neg hc]
          unfold hasDefaultChannel at hens ⊢
          cases hb1 : aget (ensure_default_voice_channel vc board) board with
          | none =>
            rw [hb1] at hens
            simp at hens
          | some bm1 =>
            rw [hb1] at hens
            dsimp only at hens
            rw [aget_aset_self]
            dsimp only
            by_cases hcg : cid = "voice-general"
            · subst hcg
              rw [aget_aset_self]
              rfl
            · rw [aget_aset_ne _ _ _ _ (fun he => hcg he.symm)]
              exact hens
  · intro hhas
    unfold hasDefaultChannel at hhas
    cases hb : aget vc board with
    | none =>
      rw [hb] at hhas
      simp at hhas
    | some bm =>
      rw [hb] at hhas
      dsimp only at hhas
      have hbm := hndb bm hb
      unfold remove_voice_channel
      dsimp only
      rw [hb]
      dsimp only
      rw [if_pos hhas]
      have hb' : aget (aset vc board (adel bm "voice-general")) board
          = some (adel bm "voice-general") := aget_aset_self _ _ _
      rw [hb']
      dsimp only
      by_cases hemp : (adel bm "voice-general").isEmpty
      · rw [if_pos hemp]
        unfold hasDefaultChannel
        rw [aget_adel_self _ _ (keysNodup_aset _ _ _ hndv)]
      · rw [if_neg hemp]
        unfold hasDefaultChannel
        rw [hb']
        dsimp only
        rw [aget_adel_self _ _ hbm]
        rfl

/-- C9 (counterexample). After the default channel of board "b" is created,
`remove_voice_channel` with the reserved id "voice-general" deletes it (and
prunes the now-empty board entry): the default can be deleted by an id
collision with the reserved id, contradicting the claimed protection. -/
theorem default_voice_channel_counterexample :
    hasDefaultChannel (ensure_default_voice_channel ([] : VoiceChannels) "b") "b"
      = true ∧
    remove_voice_channel (ensure_default_voice_channel ([] : VoiceChannels) "b")
      "b" "voice-general" = [] ∧
    hasDefaultChannel (remove_voice_channel
      (ensure_default_voice_channel ([] : VoiceChannels) "b") "b" "voice-general")
      "b" = false :=
  ⟨by decide, by decide, by decide⟩

/-- C9 (witness). The amended claim evaluated on the concrete one-board
registry holding only the freshly created default channel. -/
theorem default_voice_channel_amended_witness :
    hasDefaultChannel (remove_voice_channel
      (ensure_default_voice_channel ([] : VoiceChannels) "b") "b" "voice-general")
      "b" = false := by
  have h := default_voice_channel_amended
    (ensure_default_voice_channel ([] : VoiceChannels) "b") "b" []
    (by decide)
    (fun bm hbm => by
      rw [show aget (ensure_default_voice_channel ([] : VoiceChannels) "b") "b"
          = some [("voice-general", defaultVoiceChannel)] from rfl] at hbm
      injection hbm with hbm
      subst hbm
      decide)
  exact h.2.2.2.1 (by decide)

/-! ## C10: object_update stores the client-supplied merge -/

/-- handlers.py `handle_message`, the `object_update` arm acting on the
per-board state: a falsy objectId is a no-op; otherwise the event is recorded
and the spatial index receives `{**previousState or {}, **changes}` — the
merge of the client-supplied previous state with the changes, never consulting
the payload already stored in the index. (The broadcast carries `changes` and
no stored state.) -/
def handle_object_update (s : BoardState) (now : Nat) (user : String)
    (objectId : Option String) (changes : Dict) (previousState : Option Dict) :
    BoardState :=
  match objectId with
  | none => s
  | some oid =>
    if oid = "" then s
    else
      { log := add_event s.log now
          ⟨"update", some oid, previousState, some changes, none, some user⟩,
        index := add_object s.index oid
          (dictMerge (previousState.getD []) changes) }

/-- C10. After dispatching an `object_update` with a truthy objectId, the
payload stored in the spatial index for that object is exactly the shallow
merge of the client-supplied previousState (empty if absent) with the
changes — independent of whatever the index previously stored (the state `s`
is universally quantified and absent from the right-hand side), so a field
present only in the old index payload is lost. -/
theorem object_update_uses_client_state (s : BoardState) (now : Nat)
    (user oid : String) (changes : Dict) (previousState : Option Dict)
    (h : oid ≠ "") :
    aget (handle_object_update s now user (some oid) changes
      previousState).index.objects oid
      = some (dictMerge (previousState.getD []) changes) ∧
    (∀ k, aget (previousState.getD []) k = none → aget changes k = none →
      aget (dictMerge (previousState.getD []) changes) k = none) := by
  constructor
  · show aget (if oid = "" then s else
      { log := add_event s.log now
          ⟨"update", some oid, previousState, some changes, none, some user⟩,
        index := add_object s.index oid
          (dictMerge (previousState.getD []) changes) } :
        BoardState).index.objects oid = _
    rw [if_neg h]
    exact aget_aset_self _ _ _
  · intro k h1 h2
    rw [aget_dictMerge, h1, h2]

/-- C10 (witness). A concrete update of "X" whose index payload held a
`color` field: the stored payload afterwards is the client merge, and the
`color` field is gone. -/
theorem object_update_uses_client_state_witness :
    aget (handle_object_update
      ⟨[], add_object (SpatialIndex.init 1000) "X" [("color", Val.str "red")]⟩
      3 "u" (some "X") [("x", Val.num 5)]
      (some [("y", Val.num 7)])).index.objects "X"
      = some (dictMerge [("y", Val.num 7)] [("x", Val.num 5)]) ∧
    aget (dictMerge [("y", Val.num 7)] [("x", Val.num 5)]) "color" = none :=
  ⟨(object_update_uses_client_state
      ⟨[], add_object (SpatialIndex.init 1000) "X" [("color", Val.str "red")]⟩
      3 "u" "X" [("x", Val.num 5)] (some [("y", Val.num 7)]) (by decide)).1,
   by decide⟩
